import Mathlib

/-!
Shallow embedding of the SoterFlow synchronization and reconciliation core:
the work item model of channels/base.ts, the priority heuristics, deduplication,
sync orchestration and inbox view of agent/orchestrator.ts, the SQLite-backed
store of store/workitems.ts, store/sync.ts and the schema triggers of
store/db.ts, and the retry loop of the channels retry module.

Modelling conventions: timestamps are milliseconds since the epoch (the value
of Date.getTime; the store persists toISOString strings, whose lexicographic
order agrees with the numeric order used here). SQLite tables are lists of
rows; the JS Map and plain-object records are insertion-ordered association
lists where setting an existing key keeps its position. Array.toSorted with a
comparator is modelled by insertion sort over the corresponding total preorder.
-/

namespace Soterflow

/-- Priority levels of a work item, from the WorkItem interface in channels/base.ts. -/
inductive Priority
  | urgent
  | high
  | normal
  | low
deriving DecidableEq, Repr

/-- Item types from the WorkItem interface in channels/base.ts (pr is the pull request type). -/
inductive ItemType
  | mention
  | task
  | message
  | pr
  | issue
  | notification
deriving DecidableEq, Repr

/-- Lifecycle statuses from the WorkItem interface in channels/base.ts. -/
inductive Status
  | new
  | seen
  | in_progress
  | done
  | dismissed
deriving DecidableEq, Repr

/-- The metadata bag of a work item. The core reads only the isDM flag (in
applyPriorityHeuristics); the rest of the bag is modelled as one abstract
string, since upsert serializes and overwrites the whole bag at once. -/
structure Metadata where
  isDM : Bool
  extra : String
deriving DecidableEq, Repr

/-- The canonical work item of channels/base.ts. -/
structure WorkItem where
  id : String
  source : String
  type : ItemType
  title : String
  body : String
  author : String
  timestamp : Int
  priority : Priority
  url : String
  metadata : Metadata
  status : Status
deriving DecidableEq, Repr

/-- PRIORITY_ORDER from agent/orchestrator.ts: urgent 0, high 1, normal 2, low 3.
The source map is total on the closed priority type, so the fallback value 2 of
the lookups written as PRIORITY_ORDER[p] with a default is never used. -/
def priorityOrder : Priority → Nat
  | .urgent => 0
  | .high => 1
  | .normal => 2
  | .low => 3

/-! Word boundary matching for the urgent keyword regular expression of
applyPriorityHeuristics. A word character is a letter, digit or underscore,
matching the JS word class used by word boundaries. -/

/-- ASCII lowercasing of one character, modelling the case insensitive regex
flag and the case folding of the text index on the ASCII strings the core
handles. -/
def lowerChar (c : Char) : Char :=
  if 'A' ≤ c ∧ c ≤ 'Z' then Char.ofNat (c.toNat + 32) else c

/-- Word characters as used by the word boundary assertions of the regex. -/
def isWordChar (c : Char) : Bool := c.isAlphanum || c == '_'

/-- If cs starts with the literal w, return the remaining characters. -/
def dropLit : List Char → List Char → Option (List Char)
  | cs, [] => some cs
  | [], _ :: _ => none
  | c :: cs, d :: w => if c == d then dropLit cs w else none

/-- Word boundary before a match: start of string or a non word character. -/
def boundaryBefore : Option Char → Bool
  | none => true
  | some c => !isWordChar c

/-- Word boundary after a match: end of string or a non word character. -/
def boundaryAfter : List Char → Bool
  | [] => true
  | c :: _ => !isWordChar c

/-- Does the literal w occur at the head of cs, followed by a word boundary? -/
def litHere (cs w : List Char) : Bool :=
  match dropLit cs w with
  | some rest => boundaryAfter rest
  | none => false

/-- Scan cs for an occurrence of the literal w delimited by word boundaries;
prev is the character immediately before cs, if any. -/
def hasWordFrom (w : List Char) : Option Char → List Char → Bool
  | prev, [] => boundaryBefore prev && litHere [] w
  | prev, c :: cs => (boundaryBefore prev && litHere (c :: cs) w) || hasWordFrom w (some c) cs

/-- Case insensitive whole word containment of w in s, modelling one
alternative of the case insensitive regex with word boundaries. -/
def containsWord (s : String) (w : String) : Bool :=
  hasWordFrom w.toList none (s.toList.map lowerChar)

/-- The alternatives of the urgent keyword regex of applyPriorityHeuristics:
urgent, critical, hotfix, p0, sev-0 or sev 0 or sev0, outage, down. -/
def urgentKeywordLits : List String :=
  ["urgent", "critical", "hotfix", "p0", "sev-0", "sev 0", "sev0", "outage", "down"]

/-- The test of the urgent keyword regex on a string. -/
def urgentKeywordsTest (s : String) : Bool :=
  urgentKeywordLits.any (fun w => containsWord s w)

/-- applyAgeEscalation from agent/orchestrator.ts. The source computes the age
in fractional hours and compares with 48 and 24; for integral millisecond ages
that agrees with the integer comparisons used here. The source mutates the
item; the model returns the updated copy. -/
def applyAgeEscalation (now : Int) (item : WorkItem) : WorkItem :=
  let ageMs := now - item.timestamp
  if ageMs > 48 * 3600000 && item.priority == .high then
    { item with priority := .urgent }
  else if ageMs > 24 * 3600000 && item.priority == .normal then
    { item with priority := .high }
  else
    item

/-- applyPriorityHeuristics from agent/orchestrator.ts: the pr, mention and DM
rules each assign high, a keyword match on title or body assigns urgent, and
the final statement of the function applies age escalation at ingest as well. -/
def applyPriorityHeuristics (now : Int) (item : WorkItem) : WorkItem :=
  let item := if item.type == .pr then { item with priority := .high } else item
  let item := if item.type == .mention then { item with priority := .high } else item
  let item := if item.metadata.isDM then { item with priority := .high } else item
  let item :=
    if urgentKeywordsTest item.title || urgentKeywordsTest item.body then
      { item with priority := .urgent }
    else item
  applyAgeEscalation now item

/-! Insertion ordered association lists, modelling the JS Map of
deduplicateItems and the plain object record of the per source statistics:
setting an existing key keeps its position and replaces the value, setting a
fresh key appends it. -/

/-- Lookup in an insertion ordered association list (JS Map.get). -/
def jsMapGet {β : Type} (m : List (String × β)) (k : String) : Option β :=
  match m.find? (fun p => p.1 == k) with
  | some p => some p.2
  | none => none

/-- Update in an insertion ordered association list (JS Map.set). -/
def jsMapSet {β : Type} (m : List (String × β)) (k : String) (v : β) : List (String × β) :=
  if m.any (fun p => p.1 == k) then
    m.map (fun p => if p.1 == k then (k, v) else p)
  else
    m ++ [(k, v)]

/-- The loop of deduplicateItems from agent/orchestrator.ts, with the byUrl map
and the noUrl list as explicit accumulators. An empty url is falsy, so such
items bypass the map; otherwise a fresh url is inserted and a seen url keeps
the stored item unless the new one has a strictly smaller priority rank. -/
def dedupLoop : List WorkItem → List (String × WorkItem) → List WorkItem →
    List (String × WorkItem) × List WorkItem
  | [], byUrl, noUrl => (byUrl, noUrl)
  | item :: rest, byUrl, noUrl =>
    if item.url == "" then
      dedupLoop rest byUrl (noUrl ++ [item])
    else
      match jsMapGet byUrl item.url with
      | none => dedupLoop rest (jsMapSet byUrl item.url item) noUrl
      | some existing =>
        if priorityOrder item.priority < priorityOrder existing.priority then
          dedupLoop rest (jsMapSet byUrl item.url item) noUrl
        else
          dedupLoop rest byUrl noUrl

/-- deduplicateItems from agent/orchestrator.ts: the values of the byUrl map in
insertion order, followed by the items without url. -/
def deduplicateItems (items : List WorkItem) : List WorkItem :=
  let acc := dedupLoop items [] []
  acc.1.map Prod.snd ++ acc.2

/-! The SQLite state of store/db.ts: the workitems table with its rowid, the
workitems_fts external content index maintained by the three triggers, and the
sync_state table. The id column is the primary key of workitems and
channel_name is the primary key of sync_state. -/

/-- A persisted row of the workitems table: the item columns plus the rowid. -/
structure Row where
  rowid : Nat
  item : WorkItem
deriving DecidableEq, Repr

/-- A row of the workitems_fts index: the shadow of rowid, id, title, body, author. -/
structure FtsEntry where
  rowid : Nat
  id : String
  title : String
  body : String
  author : String
deriving DecidableEq, Repr

/-- Projection of a table row to its index entry. -/
def ftsOf (r : Row) : FtsEntry :=
  { rowid := r.rowid, id := r.item.id, title := r.item.title,
    body := r.item.body, author := r.item.author }

/-- A row of the sync_state table of store/sync.ts. -/
structure SyncStateRow where
  channelName : String
  lastSync : Int
  cursor : Option String
deriving DecidableEq, Repr

/-- The durable state touched by the core. -/
structure DB where
  workitems : List Row
  fts : List FtsEntry
  syncState : List SyncStateRow
  nextRowid : Nat
deriving DecidableEq, Repr

/-- A freshly migrated empty database. -/
def emptyDB : DB := { workitems := [], fts := [], syncState := [], nextRowid := 0 }

/-- The ON CONFLICT update clause of upsert in store/workitems.ts: it lists
title, body, author, timestamp, priority, url and metadata; id, source and
status are not in the list and keep their stored values. -/
def overwriteRow (old : WorkItem) (item : WorkItem) : WorkItem :=
  { old with
    title := item.title, body := item.body, author := item.author,
    timestamp := item.timestamp, priority := item.priority,
    url := item.url, metadata := item.metadata }

/-- upsert from store/workitems.ts together with the FTS triggers of
store/db.ts. A fresh id inserts a row at the next rowid and the AFTER INSERT
trigger appends its index entry; an id conflict updates the unique conflicting
row in place (id is the primary key), keeping its rowid, and the AFTER UPDATE
trigger deletes the index entry of that rowid and inserts the new one. -/
def upsert (item : WorkItem) (db : DB) : DB :=
  match db.workitems.find? (fun r => r.item.id == item.id) with
  | some old =>
    let newRow : Row := { old with item := overwriteRow old.item item }
    { db with
      workitems := db.workitems.map (fun r => if r.rowid == old.rowid then newRow else r),
      fts := db.fts.filter (fun e => e.rowid != old.rowid) ++ [ftsOf newRow] }
  | none =>
    let newRow : Row := { rowid := db.nextRowid, item := item }
    { db with
      workitems := db.workitems ++ [newRow],
      fts := db.fts ++ [ftsOf newRow],
      nextRowid := db.nextRowid + 1 }

/-- updateStatus from store/workitems.ts: UPDATE of the status column of the
row with the given id (a no-op for an unknown id). The AFTER UPDATE trigger
replaces the index entry of the touched row; its indexed columns are unchanged
by this write. -/
def updateStatus (id : String) (status : Status) (db : DB) : DB :=
  match db.workitems.find? (fun r => r.item.id == id) with
  | some old =>
    let newRow : Row := { old with item := { old.item with status := status } }
    { db with
      workitems := db.workitems.map (fun r => if r.rowid == old.rowid then newRow else r),
      fts := db.fts.filter (fun e => e.rowid != old.rowid) ++ [ftsOf newRow] }
  | none => db

/-- A raw DELETE of the row with the given id, together with the AFTER DELETE
trigger of store/db.ts. The core itself never deletes work items, but the
trigger is part of the schema and keeps the index in step for any delete. -/
def deleteById (id : String) (db : DB) : DB :=
  match db.workitems.find? (fun r => r.item.id == id) with
  | some old =>
    { db with
      workitems := db.workitems.filter (fun r => r.rowid != old.rowid),
      fts := db.fts.filter (fun e => e.rowid != old.rowid) }
  | none => db

/-- Tokenization of the FTS index and of queries: maximal alphanumeric runs,
case folded, as produced by the default unicode61 tokenizer on ASCII text.
The first argument accumulates the current run in reverse. -/
def tokensAux : List Char → List Char → List String
  | [], cur => if cur.isEmpty then [] else [String.mk cur.reverse]
  | c :: cs, cur =>
    if c.isAlphanum then tokensAux cs (c :: cur)
    else if cur.isEmpty then tokensAux cs cur
    else String.mk cur.reverse :: tokensAux cs []

/-- Tokens of a string for full text matching. -/
def ftsTokens (s : String) : List String :=
  tokensAux (s.toList.map lowerChar) []

/-- A single term MATCH against one index entry: the query token occurs among
the tokens of one of the indexed columns (FTS5 searches every indexed column
of the table by default). -/
def ftsMatch (q : String) (e : FtsEntry) : Bool :=
  (ftsTokens e.id ++ ftsTokens e.title ++ ftsTokens e.body ++ ftsTokens e.author).contains
    (String.mk (q.toList.map lowerChar))

/-- search from store/workitems.ts: the workitems rows joined to the index on
rowid and filtered by MATCH, returning the row columns. The relevance order of
ORDER BY rank is not modelled; table order is kept. -/
def search (q : String) (db : DB) : List WorkItem :=
  (db.workitems.filter (fun r => db.fts.any (fun e => e.rowid == r.rowid && ftsMatch q e))).map
    (fun r => r.item)

/-- Filters of getAll in store/workitems.ts. A filter given as an empty string
is falsy in the source and behaves as an absent filter, so filters are
modelled as options. -/
structure WorkItemFilters where
  source : Option String := none
  type : Option ItemType := none
  status : Option Status := none
  since : Option Int := none

/-- The conjunction of the WHERE conditions built by getAll. -/
def passesFilters (f : WorkItemFilters) (i : WorkItem) : Bool :=
  (match f.source with | some s => i.source == s | none => true) &&
  (match f.type with | some t => i.type == t | none => true) &&
  (match f.status with | some s => i.status == s | none => true) &&
  (match f.since with | some t => decide (t ≤ i.timestamp) | none => true)

/-- ORDER BY timestamp DESC of getAll, as a total preorder on items. -/
def tsDesc (a b : WorkItem) : Prop := b.timestamp ≤ a.timestamp

instance : DecidableRel tsDesc := fun a b => by unfold tsDesc; infer_instance

/-- getAll from store/workitems.ts: the filtered rows of the workitems table,
ordered by timestamp descending. -/
def getAll (f : WorkItemFilters) (db : DB) : List WorkItem :=
  List.insertionSort tsDesc ((db.workitems.map (fun r => r.item)).filter (passesFilters f))

/-- The comparator of the final toSorted of getInbox, as a total preorder:
priority rank ascending, then timestamp descending. -/
def inboxLe (a b : WorkItem) : Prop :=
  priorityOrder a.priority < priorityOrder b.priority ∨
    (priorityOrder a.priority = priorityOrder b.priority ∧ b.timestamp ≤ a.timestamp)

instance : DecidableRel inboxLe := fun a b => by unfold inboxLe; infer_instance

/-- getInbox from agent/orchestrator.ts: getAll with the given filters, the
default exclusion of done and dismissed items bypassed by an explicit status
filter, age escalation applied to a copy of each result, and the final sort by
escalated priority then recency. -/
def getInbox (now : Int) (f : WorkItemFilters) (db : DB) : List WorkItem :=
  let items := getAll f db
  let kept := items.filter (fun i =>
    if f.status.isSome then true else !(i.status == .done) && !(i.status == .dismissed))
  List.insertionSort inboxLe (kept.map (fun i => applyAgeEscalation now i))

/-- updateSyncState from store/sync.ts: insert keyed by channel_name, on
conflict overwriting last_sync and cursor of the existing row. -/
def updateSyncState (channelName : String) (cursor : Option String) (now : Int) (db : DB) : DB :=
  if db.syncState.any (fun s => s.channelName == channelName) then
    { db with syncState := db.syncState.map (fun s =>
        if s.channelName == channelName then { s with lastSync := now, cursor := cursor }
        else s) }
  else
    { db with syncState := db.syncState ++ [⟨channelName, now, cursor⟩] }

/-- getSyncState from store/sync.ts. -/
def getSyncState (channelName : String) (db : DB) : Option SyncStateRow :=
  db.syncState.find? (fun s => s.channelName == channelName)

/-- The observable outcome of one channel inside syncAll: either connect, sync
and disconnect all completed within the 30 second race and produced items, or
the catch branch was taken because a step threw, or because the timeout
rejection won the race. -/
inductive SyncOutcome
  | ok (items : List WorkItem)
  | failed (message : String)
  | timedOut
deriving DecidableEq, Repr

/-- Whether the outcome took the success path of the loop body. -/
def SyncOutcome.isOk : SyncOutcome → Bool
  | .ok _ => true
  | _ => false

/-- One channel as seen by syncAll: its name and the outcome of its fetch. -/
structure ChannelRun where
  name : String
  outcome : SyncOutcome
deriving Repr

/-- One entry of the per source record of SyncStats in agent/orchestrator.ts.
The interface has exactly the two counter fields; no error field exists. -/
structure SourceStat where
  total : Nat
  new : Nat
deriving DecidableEq, Repr

/-- SyncStats from agent/orchestrator.ts. -/
structure SyncStats where
  totalItems : Nat
  newItems : Nat
  duplicatesSkipped : Nat
  perSource : List (String × SourceStat)
deriving DecidableEq, Repr

/-- The first loop of syncAll: per channel, place a zero entry in the per
source record, then on success record the fetched count, append the items to
the combined list and update the sync state; the catch branch only logs to the
console and touches none of these. -/
def syncFetchPhase (now : Int) :
    List ChannelRun → DB → List (String × SourceStat) → List WorkItem →
    DB × List (String × SourceStat) × List WorkItem
  | [], db, per, acc => (db, per, acc)
  | ch :: rest, db, per, acc =>
    let per := jsMapSet per ch.name ⟨0, 0⟩
    match ch.outcome with
    | .ok items =>
      let per := jsMapSet per ch.name ⟨items.length, 0⟩
      syncFetchPhase now rest (updateSyncState ch.name none now db) per (acc ++ items)
    | _ => syncFetchPhase now rest db per acc

/-- The second loop of syncAll: per surviving item, apply the ingest
heuristics, upsert, and when the id was absent from the membership snapshot,
count it as new globally and against its source entry when one exists. -/
def syncPersistPhase (now : Int) :
    List WorkItem → List String → DB → Nat → List (String × SourceStat) →
    DB × Nat × List (String × SourceStat)
  | [], _, db, newCount, per => (db, newCount, per)
  | item :: rest, existingIds, db, newCount, per =>
    let item := applyPriorityHeuristics now item
    let db := upsert item db
    if existingIds.contains item.id then
      syncPersistPhase now rest existingIds db newCount per
    else
      let per :=
        match jsMapGet per item.source with
        | some st => jsMapSet per item.source { st with new := st.new + 1 }
        | none => per
      syncPersistPhase now rest existingIds db (newCount + 1) per

/-- syncAll from agent/orchestrator.ts: the fetch loop over every channel,
cross channel deduplication, the single membership snapshot of existing ids,
the persist loop, and the final getInbox read. Returns the final database
state together with the returned items and statistics. -/
def syncAll (now : Int) (channels : List ChannelRun) (db : DB) :
    DB × List WorkItem × SyncStats :=
  let fp := syncFetchPhase now channels db [] []
  let db1 := fp.1
  let deduped := deduplicateItems fp.2.2
  let existingIds := (getAll {} db1).map (fun i => i.id)
  let pp := syncPersistPhase now deduped existingIds db1 0 fp.2.1
  let stats : SyncStats :=
    { totalItems := deduped.length, newItems := pp.2.1,
      duplicatesSkipped := fp.2.2.length - deduped.length, perSource := pp.2.2 }
  (pp.1, getInbox now {} pp.1, stats)

/-! The retry executor of the channels retry module. -/

/-- An error value as inspected by the retry logic: the HTTP like status (the
first present of status, response.status and statusCode), the connection error
code, and the message identifying the error object. -/
structure RetryError where
  status : Option Int
  code : Option String
  message : String
deriving DecidableEq, Repr

/-- defaultIsRetryable from the channels retry module: status 429, any status
of at least 500, or a connection reset or timeout code. An absent status fails
both status checks, exactly as undefined does in the source comparisons. -/
def defaultIsRetryable (e : RetryError) : Bool :=
  if e.status == some 429 then true
  else if (match e.status with | some n => decide (500 ≤ n) | none => false) then true
  else if e.code == some "ECONNRESET" || e.code == some "ETIMEDOUT" then true
  else false

/-- The attempt loop of withRetry. The operation is modelled as a function
from the attempt index to its outcome, and the returned pair carries how many
times the operation was invoked. The fuel argument only makes the recursion
structural; starting it at maxRetries makes the loop run exactly the source
iterations, and exhausting it corresponds to the unreachable throw after the
loop. Sleeping between attempts has no observable effect on the result. -/
def withRetryGo {T : Type} (fn : Nat → Except RetryError T) (isR : RetryError → Bool)
    (maxRetries : Nat) : Nat → Nat → Nat → Except RetryError T × Nat
  | 0, _, calls => (.error ⟨none, none, "withRetry: unreachable"⟩, calls)
  | fuel + 1, attempt, calls =>
    if attempt < maxRetries then
      match fn attempt with
      | .ok v => (.ok v, calls + 1)
      | .error e =>
        if !isR e || attempt == maxRetries - 1 then (.error e, calls + 1)
        else withRetryGo fn isR maxRetries fuel (attempt + 1) (calls + 1)
    else (.error ⟨none, none, "withRetry: unreachable"⟩, calls)

/-- withRetry with explicit options (maxRetries and the retryable predicate;
the wait time function affects only timing and is not modelled). -/
def withRetryWith {T : Type} (fn : Nat → Except RetryError T) (isR : RetryError → Bool)
    (maxRetries : Nat) : Except RetryError T × Nat :=
  withRetryGo fn isR maxRetries maxRetries 0 0

/-- withRetry with the default options: three attempts and defaultIsRetryable. -/
def withRetry {T : Type} (fn : Nat → Except RetryError T) : Except RetryError T × Nat :=
  withRetryWith fn defaultIsRetryable 3

/-! Characterization of the dedup loop. The survivor of a url group is the
running strict minimum of the loop, made explicit below. -/

/-- The running minimum of the dedup loop on one url group: the current item is
replaced only by a later item of strictly smaller priority rank. -/
def pickMin (cur : WorkItem) : List WorkItem → WorkItem
  | [] => cur
  | x :: xs =>
    if priorityOrder x.priority < priorityOrder cur.priority then pickMin x xs else pickMin cur xs

/-- The survivor of a url group as picked by the dedup loop. -/
def groupSurvivor : List WorkItem → Option WorkItem
  | [] => none
  | x :: xs => some (pickMin x xs)

/-- The items of l sharing the url u. -/
def urlGroup (u : String) (l : List WorkItem) : List WorkItem :=
  l.filter (fun x => x.url == u)

lemma pickMin_mem (cur : WorkItem) (xs : List WorkItem) : pickMin cur xs ∈ cur :: xs := by
  induction xs generalizing cur with
  | nil => simp [pickMin]
  | cons x xs ih =>
    rw [pickMin]
    split
    · have := ih x
      rcases List.mem_cons.mp this with h | h
      · simp [h]
      · simp [List.mem_cons, h]
    · have := ih cur
      rcases List.mem_cons.mp this with h | h
      · simp [h]
      · simp [List.mem_cons, h]

lemma pickMin_le_cur (cur : WorkItem) (xs : List WorkItem) :
    priorityOrder (pickMin cur xs).priority ≤ priorityOrder cur.priority := by
  induction xs generalizing cur with
  | nil => simp [pickMin]
  | cons x xs ih =>
    rw [pickMin]
    split
    · rename_i h
      have := ih x
      omega
    · exact ih cur

lemma pickMin_le (cur : WorkItem) (xs : List WorkItem) :
    ∀ y ∈ cur :: xs, priorityOrder (pickMin cur xs).priority ≤ priorityOrder y.priority := by
  induction xs generalizing cur with
  | nil =>
    intro y hy
    rw [List.mem_singleton] at hy
    rw [hy]
    simp [pickMin]
  | cons x xs ih =>
    intro y hy
    rw [pickMin]
    by_cases hlt : priorityOrder x.priority < priorityOrder cur.priority
    · rw [if_pos hlt]
      rcases List.mem_cons.mp hy with h | h
      · rw [h]
        have := pickMin_le_cur x xs
        omega
      · rcases List.mem_cons.mp h with h2 | h2
        · rw [h2]
          exact pickMin_le_cur x xs
        · exact ih x y (List.mem_cons_of_mem x h2)
    · rw [if_neg hlt]
      rcases List.mem_cons.mp hy with h | h
      · rw [h]
        exact pickMin_le_cur cur xs
      · rcases List.mem_cons.mp h with h2 | h2
        · rw [h2]
          have := pickMin_le_cur cur xs
          omega
        · exact ih cur y (List.mem_cons_of_mem cur h2)

lemma pickMin_decomp (cur : WorkItem) (xs : List WorkItem) :
    ∃ a b, cur :: xs = a ++ pickMin cur xs :: b ∧
      ∀ y ∈ a, priorityOrder (pickMin cur xs).priority < priorityOrder y.priority := by
  induction xs generalizing cur with
  | nil => exact ⟨[], [], by simp [pickMin]⟩
  | cons x xs ih =>
    rw [pickMin]
    by_cases hlt : priorityOrder x.priority < priorityOrder cur.priority
    · rw [if_pos hlt]
      obtain ⟨a, b, hab, hmin⟩ := ih x
      refine ⟨cur :: a, b, by simp [hab], ?_⟩
      intro y hy
      rcases List.mem_cons.mp hy with h | h
      · rw [h]
        have := pickMin_le_cur x xs
        omega
      · exact hmin y h
    · rw [if_neg hlt]
      push_neg at hlt
      obtain ⟨a, b, hab, hmin⟩ := ih cur
      cases a with
      | nil =>
        simp only [List.nil_append, List.cons.injEq] at hab
        refine ⟨[], x :: xs, ?_, by simp⟩
        simp only [List.nil_append, List.cons.injEq]
        exact ⟨hab.1, trivial⟩
      | cons c a' =>
        rw [List.cons_append, List.cons.injEq] at hab
        obtain ⟨hc, htail⟩ := hab
        refine ⟨cur :: x :: a', b, ?_, ?_⟩
        · conv_lhs => rw [htail]
          simp
        intro y hy
        have hcur : priorityOrder (pickMin cur xs).priority < priorityOrder c.priority :=
          hmin c (List.mem_cons_self _ _)
        rw [← hc] at hcur
        rcases List.mem_cons.mp hy with h | h
        · rw [h]
          exact hcur
        · rcases List.mem_cons.mp h with h2 | h2
          · rw [h2]
            omega
          · exact hmin y (List.mem_cons_of_mem c h2)

lemma pickMin_append (cur x : WorkItem) (xs : List WorkItem) :
    pickMin cur (xs ++ [x]) =
      if priorityOrder x.priority < priorityOrder (pickMin cur xs).priority then x
      else pickMin cur xs := by
  induction xs generalizing cur with
  | nil => simp [pickMin]
  | cons y ys ih =>
    by_cases h : priorityOrder y.priority < priorityOrder cur.priority
    · simp only [List.cons_append, pickMin, if_pos h]
      exact ih y
    · simp only [List.cons_append, pickMin, if_neg h]
      exact ih cur

lemma groupSurvivor_append (g : List WorkItem) (x : WorkItem) :
    groupSurvivor (g ++ [x]) = some (match groupSurvivor g with
      | none => x
      | some m => if priorityOrder x.priority < priorityOrder m.priority then x else m) := by
  cases g with
  | nil => simp [groupSurvivor, pickMin]
  | cons y ys => simp [groupSurvivor, pickMin_append]

lemma jsMapGet_nil {β : Type} (k : String) : jsMapGet ([] : List (String × β)) k = none := rfl

lemma jsMapGet_cons {β : Type} (p : String × β) (m : List (String × β)) (k : String) :
    jsMapGet (p :: m) k = if (p.1 == k) = true then some p.2 else jsMapGet m k := by
  cases hp : (p.1 == k) <;> simp [jsMapGet, List.find?_cons, hp]

lemma jsMapGet_none {β : Type} {m : List (String × β)} {k : String}
    (h : jsMapGet m k = none) : ∀ p ∈ m, p.1 ≠ k := by
  induction m with
  | nil => simp
  | cons p m ih =>
    rw [jsMapGet_cons] at h
    by_cases hp : (p.1 == k) = true
    · rw [if_pos hp] at h
      exact absurd h (by simp)
    · rw [if_neg hp] at h
      intro q hq
      rcases List.mem_cons.mp hq with h2 | h2
      · rw [h2]
        simpa using hp
      · exact ih h q h2

lemma jsMapGet_none_of {β : Type} {m : List (String × β)} {k : String}
    (h : ∀ p ∈ m, p.1 ≠ k) : jsMapGet m k = none := by
  induction m with
  | nil => rfl
  | cons p m ih =>
    rw [jsMapGet_cons, if_neg (by simpa using h p (List.mem_cons_self _ _))]
    exact ih fun q hq => h q (List.mem_cons_of_mem p hq)

lemma jsMapSet_absent {β : Type} {m : List (String × β)} {k : String} (v : β)
    (h : ∀ p ∈ m, p.1 ≠ k) : jsMapSet m k v = m ++ [(k, v)] := by
  unfold jsMapSet
  rw [if_neg]
  simp only [List.any_eq_true, beq_iff_eq, not_exists, not_and]
  intro p hp
  exact h p hp

lemma jsMapGet_append_of_ne {β : Type} {m : List (String × β)} {k k' : String} (v : β)
    (hne : k' ≠ k) : jsMapGet (m ++ [(k', v)]) k = jsMapGet m k := by
  induction m with
  | nil => simp [jsMapGet_nil, jsMapGet_cons, hne]
  | cons p m ih =>
    rw [List.cons_append, jsMapGet_cons, jsMapGet_cons, ih]

lemma jsMapGet_append_self {β : Type} {m : List (String × β)} {k : String} (v : β)
    (h : ∀ p ∈ m, p.1 ≠ k) : jsMapGet (m ++ [(k, v)]) k = some v := by
  induction m with
  | nil => simp [jsMapGet_nil, jsMapGet_cons]
  | cons p m ih =>
    rw [List.cons_append, jsMapGet_cons,
      if_neg (by simpa using h p (List.mem_cons_self _ _))]
    exact ih fun q hq => h q (List.mem_cons_of_mem p hq)

lemma jsMapGet_map_replace_self {β : Type} {m : List (String × β)} {k : String} (v : β)
    (h : m.any (fun p => p.1 == k) = true) :
    jsMapGet (m.map fun p => if p.1 == k then (k, v) else p) k = some v := by
  induction m with
  | nil => simp at h
  | cons p m ih =>
    by_cases hp : (p.1 == k) = true
    · simp only [List.map_cons, if_pos hp, jsMapGet_cons]
      rw [if_pos (by simp)]
    · rw [List.any_cons] at h
      simp only [hp, Bool.false_or] at h
      simp only [List.map_cons, if_neg hp]
      rw [jsMapGet_cons, if_neg hp]
      exact ih h

lemma jsMapGet_map_replace_other {β : Type} {m : List (String × β)} {k k' : String} (v : β)
    (hne : k' ≠ k) :
    jsMapGet (m.map fun p => if p.1 == k' then (k', v) else p) k = jsMapGet m k := by
  induction m with
  | nil => rfl
  | cons p m ih =>
    by_cases hp : (p.1 == k') = true
    · have hpk : ¬ (p.1 == k) = true := by
        simp only [beq_iff_eq] at hp ⊢
        rw [hp]
        exact hne
      simp only [List.map_cons, if_pos hp]
      rw [jsMapGet_cons, jsMapGet_cons, if_neg (by simpa using hne), if_neg hpk, ih]
    · simp only [List.map_cons, if_neg hp]
      rw [jsMapGet_cons, jsMapGet_cons, ih]

lemma jsMapGet_set_self {β : Type} (m : List (String × β)) (k : String) (v : β) :
    jsMapGet (jsMapSet m k v) k = some v := by
  unfold jsMapSet
  by_cases h : m.any (fun p => p.1 == k) = true
  · rw [if_pos h]
    exact jsMapGet_map_replace_self v h
  · rw [if_neg h]
    apply jsMapGet_append_self
    intro p hp
    simp only [List.any_eq_true] at h
    push_neg at h
    simpa using h p hp

lemma jsMapGet_set_other {β : Type} (m : List (String × β)) {k k' : String} (v : β)
    (hne : k' ≠ k) : jsMapGet (jsMapSet m k' v) k = jsMapGet m k := by
  unfold jsMapSet
  by_cases h : m.any (fun p => p.1 == k') = true
  · rw [if_pos h]
    exact jsMapGet_map_replace_other v hne
  · rw [if_neg h]
    exact jsMapGet_append_of_ne v hne

lemma jsMapSet_mem {β : Type} {m : List (String × β)} {k : String} {v : β} {p : String × β}
    (hp : p ∈ jsMapSet m k v) : p = (k, v) ∨ p ∈ m := by
  unfold jsMapSet at hp
  by_cases h : m.any (fun q => q.1 == k) = true
  · rw [if_pos h] at hp
    obtain ⟨q, hq, hpq⟩ := List.mem_map.mp hp
    by_cases hqk : (q.1 == k) = true
    · rw [if_pos hqk] at hpq
      exact Or.inl hpq.symm
    · rw [if_neg hqk] at hpq
      exact Or.inr (hpq ▸ hq)
  · rw [if_neg h] at hp
    rcases List.mem_append.mp hp with h2 | h2
    · exact Or.inr h2
    · exact Or.inl (by simpa using h2)

lemma jsMapSet_keys_present {β : Type} {m : List (String × β)} {k : String} (v : β)
    (h : m.any (fun p => p.1 == k) = true) :
    (jsMapSet m k v).map Prod.fst = m.map Prod.fst := by
  unfold jsMapSet
  rw [if_pos h, List.map_map]
  apply List.map_congr_left
  intro p _
  by_cases hp : (p.1 == k) = true
  · simp only [Function.comp_apply, if_pos hp]
    simp only [beq_iff_eq] at hp
    exact hp.symm
  · simp only [Function.comp_apply, if_neg hp]

lemma jsMapGet_some {β : Type} {m : List (String × β)} {k : String} {v : β}
    (h : jsMapGet m k = some v) : (k, v) ∈ m := by
  induction m with
  | nil => simp [jsMapGet_nil] at h
  | cons p m ih =>
    rw [jsMapGet_cons] at h
    by_cases hp : (p.1 == k) = true
    · rw [if_pos hp] at h
      have h2 : p.2 = v := by simpa using h
      simp only [beq_iff_eq] at hp
      have hpv : p = (k, v) := Prod.ext hp h2
      rw [← hpv]
      exact List.mem_cons_self _ _
    · rw [if_neg hp] at h
      exact List.mem_cons_of_mem _ (ih h)

/-- Invariant of the dedup loop relating the accumulators to the processed
prefix of the input list. -/
structure DedupInv (processed : List WorkItem) (byUrl : List (String × WorkItem))
    (noUrl : List WorkItem) : Prop where
  get_eq : ∀ u : String, u ≠ "" → jsMapGet byUrl u = groupSurvivor (urlGroup u processed)
  keys_nodup : (byUrl.map Prod.fst).Nodup
  key_url : ∀ p ∈ byUrl, p.2.url = p.1 ∧ p.1 ≠ ""
  mem_sub : ∀ p ∈ byUrl, p.2 ∈ processed
  no_url_eq : noUrl = processed.filter (fun x => x.url == "")

lemma urlGroup_append_ne {u : String} {x : WorkItem} (l : List WorkItem) (h : x.url ≠ u) :
    urlGroup u (l ++ [x]) = urlGroup u l := by
  unfold urlGroup
  rw [List.filter_append]
  have hb : (x.url == u) = false := by simpa using h
  simp [hb]

lemma urlGroup_append_self {u : String} {x : WorkItem} (l : List WorkItem) (h : x.url = u) :
    urlGroup u (l ++ [x]) = urlGroup u l ++ [x] := by
  unfold urlGroup
  rw [List.filter_append]
  have hb : (x.url == u) = true := by simpa using h
  simp [hb]

lemma groupSurvivor_eq_none {g : List WorkItem} (h : groupSurvivor g = none) : g = [] := by
  cases g with
  | nil => rfl
  | cons x xs => simp [groupSurvivor] at h

lemma dedupInv_step_noUrl {p : List WorkItem} {b : List (String × WorkItem)} {n : List WorkItem}
    {item : WorkItem} (h : DedupInv p b n) (hurl : item.url = "") :
    DedupInv (p ++ [item]) b (n ++ [item]) := by
  refine ⟨?_, h.keys_nodup, h.key_url, ?_, ?_⟩
  · intro u hu
    rw [urlGroup_append_ne p (by rw [hurl]; exact Ne.symm hu)]
    exact h.get_eq u hu
  · intro q hq
    exact List.mem_append_left _ (h.mem_sub q hq)
  · rw [List.filter_append, h.no_url_eq]
    have hb : (item.url == "") = true := by simpa using hurl
    simp [hb]

lemma dedupInv_step_fresh {p : List WorkItem} {b : List (String × WorkItem)} {n : List WorkItem}
    {item : WorkItem} (h : DedupInv p b n) (hurl : item.url ≠ "")
    (hget : jsMapGet b item.url = none) :
    DedupInv (p ++ [item]) (jsMapSet b item.url item) n := by
  have habs : ∀ q ∈ b, q.1 ≠ item.url := jsMapGet_none hget
  have hset : jsMapSet b item.url item = b ++ [(item.url, item)] := jsMapSet_absent _ habs
  have hgroup : urlGroup item.url p = [] := by
    have h1 := h.get_eq item.url hurl
    rw [hget] at h1
    exact groupSurvivor_eq_none h1.symm
  refine ⟨?_, ?_, ?_, ?_, ?_⟩
  · intro u hu
    by_cases huu : u = item.url
    · subst huu
      rw [hset, jsMapGet_append_self _ habs, urlGroup_append_self p rfl, hgroup]
      simp [groupSurvivor, pickMin]
    · rw [hset, jsMapGet_append_of_ne _ (Ne.symm huu), urlGroup_append_ne p (Ne.symm huu)]
      exact h.get_eq u hu
  · rw [hset, List.map_append]
    refine h.keys_nodup.append (List.nodup_singleton _) ?_
    intro a ha hmem
    rw [List.map_singleton, List.mem_singleton] at hmem
    subst hmem
    obtain ⟨q, hq, hq1⟩ := List.mem_map.mp ha
    exact habs q hq hq1
  · intro q hq
    rw [hset] at hq
    rcases List.mem_append.mp hq with h2 | h2
    · exact h.key_url q h2
    · rw [List.mem_singleton] at h2
      rw [h2]
      exact ⟨rfl, hurl⟩
  · intro q hq
    rw [hset] at hq
    rcases List.mem_append.mp hq with h2 | h2
    · exact List.mem_append_left _ (h.mem_sub q h2)
    · rw [List.mem_singleton] at h2
      rw [h2]
      exact List.mem_append_right _ (List.mem_singleton_self _)
  · rw [List.filter_append, h.no_url_eq]
    have hb : (item.url == "") = false := by simpa using hurl
    simp [hb]

lemma dedupInv_step_better {p : List WorkItem} {b : List (String × WorkItem)} {n : List WorkItem}
    {item existing : WorkItem} (h : DedupInv p b n) (hurl : item.url ≠ "")
    (hget : jsMapGet b item.url = some existing)
    (hlt : priorityOrder item.priority < priorityOrder existing.priority) :
    DedupInv (p ++ [item]) (jsMapSet b item.url item) n := by
  have hpresent : b.any (fun q => q.1 == item.url) = true := by
    rw [List.any_eq_true]
    exact ⟨(item.url, existing), jsMapGet_some hget, by simp⟩
  have hold : groupSurvivor (urlGroup item.url p) = some existing :=
    (h.get_eq item.url hurl).symm.trans hget
  refine ⟨?_, ?_, ?_, ?_, ?_⟩
  · intro u hu
    by_cases huu : u = item.url
    · subst huu
      rw [jsMapGet_set_self, urlGroup_append_self p rfl, groupSurvivor_append, hold]
      simp [hlt]
    · rw [jsMapGet_set_other b item (Ne.symm huu), urlGroup_append_ne p (Ne.symm huu)]
      exact h.get_eq u hu
  · rw [jsMapSet_keys_present _ hpresent]
    exact h.keys_nodup
  · intro q hq
    rcases jsMapSet_mem hq with h2 | h2
    · rw [h2]
      exact ⟨rfl, hurl⟩
    · exact h.key_url q h2
  · intro q hq
    rcases jsMapSet_mem hq with h2 | h2
    · rw [h2]
      exact List.mem_append_right _ (List.mem_singleton_self _)
    · exact List.mem_append_left _ (h.mem_sub q h2)
  · rw [List.filter_append, h.no_url_eq]
    have hb : (item.url == "") = false := by simpa using hurl
    simp [hb]

lemma dedupInv_step_keep {p : List WorkItem} {b : List (String × WorkItem)} {n : List WorkItem}
    {item existing : WorkItem} (h : DedupInv p b n) (hurl : item.url ≠ "")
    (hget : jsMapGet b item.url = some existing)
    (hge : ¬ priorityOrder item.priority < priorityOrder existing.priority) :
    DedupInv (p ++ [item]) b n := by
  have hold : groupSurvivor (urlGroup item.url p) = some existing :=
    (h.get_eq item.url hurl).symm.trans hget
  refine ⟨?_, h.keys_nodup, h.key_url, ?_, ?_⟩
  · intro u hu
    by_cases huu : u = item.url
    · subst huu
      rw [urlGroup_append_self p rfl, groupSurvivor_append, hold, hget]
      simp [hge]
    · rw [urlGroup_append_ne p (Ne.symm huu)]
      exact h.get_eq u hu
  · intro q hq
    exact List.mem_append_left _ (h.mem_sub q hq)
  · rw [List.filter_append, h.no_url_eq]
    have hb : (item.url == "") = false := by simpa using hurl
    simp [hb]

lemma dedupLoop_inv (rest : List WorkItem) :
    ∀ (processed : List WorkItem) (byUrl : List (String × WorkItem)) (noUrl : List WorkItem),
      DedupInv processed byUrl noUrl →
      DedupInv (processed ++ rest) (dedupLoop rest byUrl noUrl).1 (dedupLoop rest byUrl noUrl).2 := by
  induction rest with
  | nil =>
    intro p b n h
    simpa [dedupLoop] using h
  | cons item rest ih =>
    intro p b n h
    rw [show p ++ item :: rest = (p ++ [item]) ++ rest by simp]
    by_cases hurl : (item.url == "") = true
    · have hurl' : item.url = "" := by simpa using hurl
      have hred : dedupLoop (item :: rest) b n = dedupLoop rest b (n ++ [item]) := by
        simp only [dedupLoop]
        rw [if_pos hurl]
      rw [hred]
      exact ih _ _ _ (dedupInv_step_noUrl h hurl')
    · have hurl' : item.url ≠ "" := by simpa using hurl
      cases hget : jsMapGet b item.url with
      | none =>
        have hred : dedupLoop (item :: rest) b n =
            dedupLoop rest (jsMapSet b item.url item) n := by
          simp only [dedupLoop]
          rw [if_neg hurl, hget]
        rw [hred]
        exact ih _ _ _ (dedupInv_step_fresh h hurl' hget)
      | some existing =>
        by_cases hlt : priorityOrder item.priority < priorityOrder existing.priority
        · have hred : dedupLoop (item :: rest) b n =
              dedupLoop rest (jsMapSet b item.url item) n := by
            simp only [dedupLoop]
            rw [if_neg hurl, hget]
            exact if_pos hlt
          rw [hred]
          exact ih _ _ _ (dedupInv_step_better h hurl' hget hlt)
        · have hred : dedupLoop (item :: rest) b n = dedupLoop rest b n := by
            simp only [dedupLoop]
            rw [if_neg hurl, hget]
            exact if_neg hlt
          rw [hred]
          exact ih _ _ _ (dedupInv_step_keep h hurl' hget hlt)

lemma dedupInv_init : DedupInv [] [] [] :=
  ⟨fun _ _ => rfl, List.nodup_nil, fun _ h => absurd h (List.not_mem_nil _),
    fun _ h => absurd h (List.not_mem_nil _), rfl⟩

lemma dedupInv_full (l : List WorkItem) :
    DedupInv l (dedupLoop l [] []).1 (dedupLoop l [] []).2 := by
  have h := dedupLoop_inv l [] [] [] dedupInv_init
  simpa using h

lemma map_snd_filter_key {b : List (String × WorkItem)} (u : String)
    (hnodup : (b.map Prod.fst).Nodup) (hku : ∀ p ∈ b, p.2.url = p.1) :
    (b.map Prod.snd).filter (fun x => x.url == u) = (jsMapGet b u).toList := by
  induction b with
  | nil => rfl
  | cons p b ih =>
    have hpurl := hku p (List.mem_cons_self _ _)
    rw [List.map_cons, List.nodup_cons] at hnodup
    simp only [List.map_cons, List.filter_cons, jsMapGet_cons]
    by_cases hp : (p.1 == u) = true
    · rw [if_pos hp]
      have hfil : (p.2.url == u) = true := by rw [hpurl]; exact hp
      rw [if_pos hfil]
      have hnotin : ∀ q ∈ b, q.1 ≠ u := by
        intro q hq he
        apply hnodup.1
        have hqp : q.1 = p.1 := by
          rw [he, beq_iff_eq.mp hp]
        rw [← hqp]
        exact List.mem_map.mpr ⟨q, hq, rfl⟩
      have htail : (b.map Prod.snd).filter (fun x => x.url == u) = [] := by
        rw [ih hnodup.2 (fun q hq => hku q (List.mem_cons_of_mem p hq)), jsMapGet_none_of hnotin]
        rfl
      rw [htail]
      rfl
    · rw [if_neg hp]
      have hfil : ¬ (p.2.url == u) = true := by rw [hpurl]; exact hp
      rw [if_neg hfil]
      exact ih hnodup.2 fun q hq => hku q (List.mem_cons_of_mem p hq)

lemma deduplicateItems_filter_url (l : List WorkItem) (u : String) (hu : u ≠ "") :
    (deduplicateItems l).filter (fun x => x.url == u) = (groupSurvivor (urlGroup u l)).toList := by
  have inv := dedupInv_full l
  unfold deduplicateItems
  rw [List.filter_append]
  have h1 := map_snd_filter_key u inv.keys_nodup (fun p hp => (inv.key_url p hp).1)
  have h2 : (dedupLoop l [] []).2.filter (fun x => x.url == u) = [] := by
    rw [List.filter_eq_nil_iff]
    intro x hx
    have hxe : x.url = "" := by
      rw [inv.no_url_eq] at hx
      simpa using (List.mem_filter.mp hx).2
    simp [hxe, Ne.symm hu]
  rw [h1, h2, inv.get_eq u hu, List.append_nil]

lemma deduplicateItems_filter_empty (l : List WorkItem) :
    (deduplicateItems l).filter (fun x => x.url == "") = l.filter (fun x => x.url == "") := by
  have inv := dedupInv_full l
  unfold deduplicateItems
  rw [List.filter_append]
  have h1 : ((dedupLoop l [] []).1.map Prod.snd).filter (fun x => x.url == "") = [] := by
    rw [List.filter_eq_nil_iff]
    intro x hx
    obtain ⟨q, hq, hqx⟩ := List.mem_map.mp hx
    have hk := inv.key_url q hq
    rw [← hqx]
    simp [hk.1, hk.2]
  have h2 : (dedupLoop l [] []).2.filter (fun x => x.url == "") = (dedupLoop l [] []).2 := by
    rw [List.filter_eq_self]
    intro x hx
    rw [inv.no_url_eq] at hx
    exact (List.mem_filter.mp hx).2
  rw [h1, h2, List.nil_append, inv.no_url_eq]

lemma deduplicateItems_subset {l : List WorkItem} {x : WorkItem}
    (hx : x ∈ deduplicateItems l) : x ∈ l := by
  have inv := dedupInv_full l
  unfold deduplicateItems at hx
  rcases List.mem_append.mp hx with h | h
  · obtain ⟨q, hq, hqx⟩ := List.mem_map.mp h
    exact hqx ▸ inv.mem_sub q hq
  · rw [inv.no_url_eq] at h
    exact (List.mem_filter.mp h).1

lemma dedupLoop_cons_empty {item : WorkItem} (rest : List WorkItem)
    (b : List (String × WorkItem)) (n : List WorkItem) (h : item.url = "") :
    dedupLoop (item :: rest) b n = dedupLoop rest b (n ++ [item]) := by
  simp only [dedupLoop]
  rw [if_pos (by simpa using h)]

lemma dedupLoop_cons_fresh {item : WorkItem} (rest : List WorkItem)
    (b : List (String × WorkItem)) (n : List WorkItem) (h : item.url ≠ "")
    (hget : jsMapGet b item.url = none) :
    dedupLoop (item :: rest) b n = dedupLoop rest (jsMapSet b item.url item) n := by
  simp only [dedupLoop]
  rw [if_neg (by simpa using h), hget]

lemma dedupLoop_cons_better {item existing : WorkItem} (rest : List WorkItem)
    (b : List (String × WorkItem)) (n : List WorkItem) (h : item.url ≠ "")
    (hget : jsMapGet b item.url = some existing)
    (hlt : priorityOrder item.priority < priorityOrder existing.priority) :
    dedupLoop (item :: rest) b n = dedupLoop rest (jsMapSet b item.url item) n := by
  simp only [dedupLoop]
  rw [if_neg (by simpa using h), hget]
  exact if_pos hlt

lemma dedupLoop_cons_keep {item existing : WorkItem} (rest : List WorkItem)
    (b : List (String × WorkItem)) (n : List WorkItem) (h : item.url ≠ "")
    (hget : jsMapGet b item.url = some existing)
    (hge : ¬ priorityOrder item.priority < priorityOrder existing.priority) :
    dedupLoop (item :: rest) b n = dedupLoop rest b n := by
  simp only [dedupLoop]
  rw [if_neg (by simpa using h), hget]
  exact if_neg hge

lemma dedupLoop_append (xs ys : List WorkItem) :
    ∀ b n, dedupLoop (xs ++ ys) b n =
      dedupLoop ys (dedupLoop xs b n).1 (dedupLoop xs b n).2 := by
  induction xs with
  | nil => intro b n; simp [dedupLoop]
  | cons item xs ih =>
    intro b n
    rw [List.cons_append]
    by_cases hurl : item.url = ""
    · rw [dedupLoop_cons_empty _ _ _ hurl, dedupLoop_cons_empty _ _ _ hurl, ih]
    · cases hget : jsMapGet b item.url with
      | none =>
        rw [dedupLoop_cons_fresh _ _ _ hurl hget, dedupLoop_cons_fresh _ _ _ hurl hget, ih]
      | some existing =>
        by_cases hlt : priorityOrder item.priority < priorityOrder existing.priority
        · rw [dedupLoop_cons_better _ _ _ hurl hget hlt,
            dedupLoop_cons_better _ _ _ hurl hget hlt, ih]
        · rw [dedupLoop_cons_keep _ _ _ hurl hget hlt,
            dedupLoop_cons_keep _ _ _ hurl hget hlt, ih]

lemma dedupLoop_fresh (vs : List WorkItem) :
    ∀ b n, (∀ v ∈ vs, v.url ≠ "") → ((vs.map fun v => v.url).Nodup) →
      (∀ v ∈ vs, jsMapGet b v.url = none) →
      dedupLoop vs b n = (b ++ vs.map fun v => (v.url, v), n) := by
  induction vs with
  | nil =>
    intro b n _ _ _
    simp [dedupLoop]
  | cons v vs ih =>
    intro b n h1 h2 h3
    have hv := h3 v (List.mem_cons_self _ _)
    have step : dedupLoop (v :: vs) b n = dedupLoop vs (jsMapSet b v.url v) n :=
      dedupLoop_cons_fresh _ _ _ (h1 v (List.mem_cons_self _ _)) hv
    have hset : jsMapSet b v.url v = b ++ [(v.url, v)] := jsMapSet_absent v (jsMapGet_none hv)
    rw [List.map_cons, List.nodup_cons] at h2
    rw [step, hset, ih (b ++ [(v.url, v)]) n
      (fun w hw => h1 w (List.mem_cons_of_mem v hw)) h2.2 ?_]
    · simp
    · intro w hw
      have hne : v.url ≠ w.url := by
        intro he
        exact h2.1 (he ▸ List.mem_map.mpr ⟨w, hw, rfl⟩)
      rw [jsMapGet_append_of_ne _ hne]
      exact h3 w (List.mem_cons_of_mem v hw)

lemma dedupLoop_allEmpty (ns : List WorkItem) :
    ∀ b n, (∀ x ∈ ns, x.url = "") → dedupLoop ns b n = (b, n ++ ns) := by
  induction ns with
  | nil =>
    intro b n _
    simp [dedupLoop]
  | cons x ns ih =>
    intro b n h
    have step : dedupLoop (x :: ns) b n = dedupLoop ns b (n ++ [x]) :=
      dedupLoop_cons_empty _ _ _ (h x (List.mem_cons_self _ _))
    rw [step, ih b (n ++ [x]) (fun y hy => h y (List.mem_cons_of_mem _ hy))]
    simp

/-- Item X of the cross source collapse scenario: source a, shared url, priority normal. -/
def itmX : WorkItem :=
  { id := "gh-42", source := "a", type := .issue, title := "Item X", body := "",
    author := "testuser", timestamp := 0, priority := .normal,
    url := "https://github.com/org/repo/issues/42", metadata := ⟨false, ""⟩, status := .new }

/-- Item Y of the cross source collapse scenario: source b, the same url, priority high. -/
def itmY : WorkItem :=
  { id := "sl-42", source := "b", type := .issue, title := "Item Y", body := "",
    author := "testuser", timestamp := 0, priority := .high,
    url := "https://github.com/org/repo/issues/42", metadata := ⟨false, ""⟩, status := .new }

/-- C4: deduplicateItems groups the items having a non empty url by url and
keeps exactly one survivor per group, the item with the smallest priority rank
(urgent 0, high 1, normal 2, low 3), first seen winning ties; every item with
an empty url survives unconditionally; and ingesting two items with the same
url and priorities normal and high in one run leaves exactly one stored record
for that url, with priority high. The survivor of a group g is groupSurvivor g,
shown below to be a member of g of minimal rank preceded only by items of
strictly greater rank. -/
theorem C4_dedup_grouping :
    (∀ (l : List WorkItem) (u : String), u ≠ "" →
      (deduplicateItems l).filter (fun x => x.url == u) =
        (groupSurvivor (urlGroup u l)).toList) ∧
    (∀ l : List WorkItem,
      (deduplicateItems l).filter (fun x => x.url == "") =
        l.filter (fun x => x.url == "")) ∧
    (∀ (l : List WorkItem) (x : WorkItem), x ∈ deduplicateItems l → x ∈ l) ∧
    (∀ (g : List WorkItem) (m : WorkItem), groupSurvivor g = some m →
      m ∈ g ∧ (∀ y ∈ g, priorityOrder m.priority ≤ priorityOrder y.priority) ∧
      ∃ a b, g = a ++ m :: b ∧
        ∀ y ∈ a, priorityOrder m.priority < priorityOrder y.priority) ∧
    ((syncAll 0 [⟨"a", .ok [itmX]⟩, ⟨"b", .ok [itmY]⟩] emptyDB).1.workitems.map
        (fun r => (r.item.url, r.item.priority)) =
      [("https://github.com/org/repo/issues/42", Priority.high)]) := by
  refine ⟨deduplicateItems_filter_url, deduplicateItems_filter_empty,
    fun l x => deduplicateItems_subset, ?_, by rfl⟩
  intro g m hm
  cases g with
  | nil => simp [groupSurvivor] at hm
  | cons x xs =>
    have hpick : pickMin x xs = m := by simpa [groupSurvivor] using hm
    refine ⟨hpick ▸ pickMin_mem x xs, ?_, ?_⟩
    · intro y hy
      exact hpick ▸ pickMin_le x xs y hy
    · obtain ⟨a, b, hab, hmin⟩ := pickMin_decomp x xs
      exact ⟨a, b, hpick ▸ hab, fun y hy => hpick ▸ hmin y hy⟩

/-- Witness for C4: the grouping clause evaluated on the two item scenario,
with the non empty url hypothesis discharged concretely. -/
theorem C4_dedup_grouping_witness :
    (deduplicateItems [itmX, itmY]).filter
        (fun x => x.url == "https://github.com/org/repo/issues/42") =
      (groupSurvivor (urlGroup "https://github.com/org/repo/issues/42" [itmX, itmY])).toList :=
  C4_dedup_grouping.1 [itmX, itmY] "https://github.com/org/repo/issues/42" (by decide)

/-- C10: deduplicateItems is idempotent; applying it to its own output returns
the output unchanged, survivors in the same order. -/
theorem C10_dedup_idempotent (l : List WorkItem) :
    deduplicateItems (deduplicateItems l) = deduplicateItems l := by
  have inv := dedupInv_full l
  have hvsurl : ∀ v ∈ (dedupLoop l [] []).1.map Prod.snd, v.url ≠ "" := by
    intro v hv
    obtain ⟨q, hq, hqv⟩ := List.mem_map.mp hv
    have hk := inv.key_url q hq
    rw [← hqv, hk.1]
    exact hk.2
  have hvsnodup : (((dedupLoop l [] []).1.map Prod.snd).map fun v => v.url).Nodup := by
    have he : (((dedupLoop l [] []).1.map Prod.snd).map fun v => v.url) =
        (dedupLoop l [] []).1.map Prod.fst := by
      rw [List.map_map]
      apply List.map_congr_left
      intro p hp
      exact (inv.key_url p hp).1
    rw [he]
    exact inv.keys_nodup
  have hnsurl : ∀ x ∈ (dedupLoop l [] []).2, x.url = "" := by
    intro x hx
    rw [inv.no_url_eq] at hx
    simpa using (List.mem_filter.mp hx).2
  have hinner : deduplicateItems l =
      (dedupLoop l [] []).1.map Prod.snd ++ (dedupLoop l [] []).2 := rfl
  conv_lhs => rw [hinner]
  unfold deduplicateItems
  rw [dedupLoop_append,
    dedupLoop_fresh ((dedupLoop l [] []).1.map Prod.snd) [] [] hvsurl hvsnodup (fun v _ => rfl)]
  simp only [List.nil_append]
  rw [dedupLoop_allEmpty (dedupLoop l [] []).2 _ _ hnsurl]
  simp only [List.nil_append, List.map_map]
  rfl

/-- Item of the age escalation persistence scenario: priority normal, type
issue, no urgent keywords, timestamp 25 hours before the run time used below. -/
def itmOld : WorkItem :=
  { id := "gh-old", source := "github", type := .issue, title := "Old normal item", body := "",
    author := "testuser", timestamp := 0, priority := .normal, url := "",
    metadata := ⟨false, ""⟩, status := .new }

/-- C1 (code bug): the claim states the persisted priority reflects only the
ingest time rules and that reading an ingested normal item aged over 24 hours
back from raw storage shows normal. In the source, applyPriorityHeuristics
ends by calling applyAgeEscalation before the upsert (its last line is
commented as age based escalation on ingest too), so the escalated value is
persisted: syncing a normal item 25 hours old stores priority high, and the
raw getAll read returns high, not normal. REVIEW.md item 7 records exactly
this as a bug whose fix is to drop that call. This theorem evaluates the model
at the failing input: the run time is 90000000 ms after the item timestamp,
which is 25 hours. -/
theorem C1_age_escalation_persisted :
    (getAll {} (syncAll 90000000 [⟨"github", .ok [itmOld]⟩] emptyDB).1).map
      (fun i => (i.id, i.priority)) = [("gh-old", Priority.high)] := rfl

/-- Good item of the failure isolation scenario. -/
def itmOk : WorkItem :=
  { id := "gh-ok", source := "github", type := .issue, title := "Good item", body := "",
    author := "testuser", timestamp := 0, priority := .normal,
    url := "https://example.com/gh-ok", metadata := ⟨false, ""⟩, status := .new }

/-- The two channels of the failure isolation scenario: jira throws, github
succeeds with one item. -/
def chansC2 : List ChannelRun :=
  [⟨"jira", .failed "jira sync failed"⟩, ⟨"github", .ok [itmOk]⟩]

/-- C2 (code bug): the claim states the failing channel error is recorded in
that channel entry of the returned per source stats. syncAll does return
without throwing and persists the succeeding channel items, but the SourceStat
interface of the source has only the total and new counters (no error field
exists anywhere in SyncStats), and after the failed jira fetch its entry is
left at the zero counts it was initialized with; the error goes only to the
console log. REVIEW.md item 6 records the missing error propagation. This
theorem evaluates the model at the failing input. -/
theorem C2_failure_isolated_but_error_not_in_stats :
    (getAll {} (syncAll 0 chansC2 emptyDB).1).map (fun i => i.id) = ["gh-ok"] ∧
    (syncAll 0 chansC2 emptyDB).2.2.perSource =
      [("jira", ⟨0, 0⟩), ("github", ⟨1, 1⟩)] := ⟨rfl, rfl⟩

/-- The urgent pull request of the C5 counterexample: no urgent keyword in the
title or body, fresh timestamp, incoming priority urgent. -/
def itmUrgentPr : WorkItem :=
  { id := "pr-1", source := "github", type := .pr, title := "Fix login flow", body := "",
    author := "testuser", timestamp := 0, priority := .urgent,
    url := "https://x.com/pr/1", metadata := ⟨false, ""⟩, status := .new }

/-- C5 counterexample: the claim says the rules force priority to at least
high and never lower the incoming priority, an urgent item staying urgent. The
pr rule of the source assigns exactly high, so an urgent pull request without
urgent keywords comes out high: the rules lowered its priority. -/
theorem C5_heuristics_counterexample :
    itmUrgentPr.priority = Priority.urgent ∧
    (applyPriorityHeuristics 0 itmUrgentPr).priority = Priority.high := ⟨rfl, rfl⟩

lemma applyAgeEscalation_urgent {now : Int} {j : WorkItem} (h : j.priority = .urgent) :
    applyAgeEscalation now j = j := by
  unfold applyAgeEscalation
  simp [h]

lemma applyAgeEscalation_high {now : Int} {j : WorkItem} (h : j.priority = .high) :
    applyAgeEscalation now j =
      if now - j.timestamp > 48 * 3600000 then { j with priority := .urgent } else j := by
  unfold applyAgeEscalation
  by_cases hage : now - j.timestamp > 48 * 3600000 <;> simp [h, hage]

lemma applyPriorityHeuristics_keyword (now : Int) (item : WorkItem)
    (hkw : (urgentKeywordsTest item.title || urgentKeywordsTest item.body) = true) :
    applyPriorityHeuristics now item =
      applyAgeEscalation now { item with priority := .urgent } := by
  unfold applyPriorityHeuristics
  by_cases h1 : item.type == ItemType.pr <;>
    by_cases h2 : item.type == ItemType.mention <;>
      by_cases h3 : item.metadata.isDM <;>
        simp [h1, h2, h3, hkw]

lemma applyPriorityHeuristics_typeDM (now : Int) (item : WorkItem)
    (hkw : (urgentKeywordsTest item.title || urgentKeywordsTest item.body) = false)
    (ht : item.type = ItemType.pr ∨ item.type = ItemType.mention ∨ item.metadata.isDM = true) :
    applyPriorityHeuristics now item =
      applyAgeEscalation now { item with priority := .high } := by
  unfold applyPriorityHeuristics
  rcases ht with ht | ht | ht <;>
    by_cases h1 : item.type == ItemType.pr <;>
      by_cases h2 : item.type == ItemType.mention <;>
        by_cases h3 : item.metadata.isDM <;>
          simp_all

/-- C5 amended: the type and DM rules set the priority to exactly high, not to
a maximum, and the keyword rule then overrides them with urgent; the final
ingest time age escalation never changes an urgent result and raises an aged
high result to urgent. Hence a keyword match always yields urgent; a pull
request, mention or direct message without keyword match yields exactly high
when at most 48 hours old (urgent beyond that) even if it arrived urgent, so
the rules can lower an incoming urgent priority, contrary to the original
claim refuted by the counterexample. -/
theorem C5_heuristics_amended (now : Int) (item : WorkItem) :
    ((urgentKeywordsTest item.title || urgentKeywordsTest item.body) = true →
      (applyPriorityHeuristics now item).priority = Priority.urgent) ∧
    ((urgentKeywordsTest item.title || urgentKeywordsTest item.body) = false →
      (item.type = ItemType.pr ∨ item.type = ItemType.mention ∨ item.metadata.isDM = true) →
      (applyPriorityHeuristics now item).priority =
        if now - item.timestamp > 48 * 3600000 then Priority.urgent else Priority.high) := by
  constructor
  · intro hkw
    rw [applyPriorityHeuristics_keyword now item hkw, applyAgeEscalation_urgent rfl]
  · intro hkw ht
    rw [applyPriorityHeuristics_typeDM now item hkw ht, applyAgeEscalation_high rfl]
    split <;> rfl

/-- Witness for C5: the keyword clause of the amended theorem evaluated on an
item whose title contains the keyword critical, with both hypotheses
discharged concretely. -/
theorem C5_heuristics_amended_witness :
    (applyPriorityHeuristics 0
        { id := "k-1", source := "github", type := .issue, title := "CRITICAL: server down",
          body := "", author := "testuser", timestamp := 0, priority := .normal, url := "",
          metadata := ⟨false, ""⟩, status := .new }).priority = Priority.urgent :=
  (C5_heuristics_amended 0 _).1 rfl

/-- The retryable status 500 error of the retry scenarios. -/
def errServer : RetryError := { status := some 500, code := none, message := "Server error" }

/-- The non retryable status 404 error of the retry scenarios. -/
def errNotFound : RetryError := { status := some 404, code := none, message := "Not found" }

/-- C6 counterexample: the claim says that after the third failed attempt the
last error propagates as an ExhaustedRetries error carrying the original
error. The source rethrows the caught error object itself on the final
attempt, and no ExhaustedRetries kind exists anywhere in the code: with the
default options and an operation that always fails with a retryable status
500 error, withRetry returns exactly the original error unchanged after three
invocations, not a wrapper carrying it. -/
theorem C6_retry_counterexample :
    @withRetry Unit (fun _ => .error errServer) = (.error errServer, 3) := rfl

lemma withRetryGo_calls_le {T : Type} (fn : Nat → Except RetryError T)
    (isR : RetryError → Bool) (mr : Nat) :
    ∀ fuel attempt calls, (withRetryGo fn isR mr fuel attempt calls).2 ≤ calls + fuel := by
  intro fuel
  induction fuel with
  | zero =>
    intro attempt calls
    simp [withRetryGo]
  | succ fuel ih =>
    intro attempt calls
    by_cases ha : attempt < mr
    · cases hfn : fn attempt with
      | ok v =>
        have : withRetryGo fn isR mr (fuel + 1) attempt calls = (.ok v, calls + 1) := by
          simp only [withRetryGo]
          rw [if_pos ha, hfn]
        rw [this]
        omega
      | error e =>
        by_cases hc : (!isR e || attempt == mr - 1) = true
        · have : withRetryGo fn isR mr (fuel + 1) attempt calls = (.error e, calls + 1) := by
            simp only [withRetryGo]
            rw [if_pos ha, hfn]
            exact if_pos hc
          rw [this]
          omega
        · have : withRetryGo fn isR mr (fuel + 1) attempt calls =
              withRetryGo fn isR mr fuel (attempt + 1) (calls + 1) := by
            simp only [withRetryGo]
            rw [if_pos ha, hfn]
            exact if_neg hc
          rw [this]
          have := ih (attempt + 1) (calls + 1)
          omega
    · have : withRetryGo fn isR mr (fuel + 1) attempt calls =
          (.error ⟨none, none, "withRetry: unreachable"⟩, calls) := by
        simp only [withRetryGo]
        rw [if_neg ha]
      rw [this]
      omega

/-- C6 amended: with the default options the operation is invoked at most
three times; a non retryable first error propagates immediately with exactly
one invocation; and when every attempt fails with a retryable error, after the
third attempt the last error propagates unchanged, with no wrapper around it. -/
theorem C6_retry_amended {T : Type} (fn : Nat → Except RetryError T) :
    (withRetry fn).2 ≤ 3 ∧
    (∀ e, fn 0 = .error e → defaultIsRetryable e = false → withRetry fn = (.error e, 1)) ∧
    (∀ es : Nat → RetryError, (∀ i, i < 3 → fn i = .error (es i)) →
      (∀ i, i < 3 → defaultIsRetryable (es i) = true) →
      withRetry fn = (.error (es 2), 3)) := by
  refine ⟨withRetryGo_calls_le fn defaultIsRetryable 3 3 0 0, ?_, ?_⟩
  · intro e h0 hnr
    simp [withRetry, withRetryWith, withRetryGo, h0, hnr]
  · intro es hall hret
    have h0 := hall 0 (by omega)
    have h1 := hall 1 (by omega)
    have h2 := hall 2 (by omega)
    have r0 := hret 0 (by omega)
    have r1 := hret 1 (by omega)
    have r2 := hret 2 (by omega)
    simp [withRetry, withRetryWith, withRetryGo, h0, h1, h2, r0, r1, r2]

/-- Witness for C6: the immediate propagation clause of the amended theorem
evaluated on an operation that always fails with a non retryable 404 error,
with both hypotheses discharged concretely. -/
theorem C6_retry_amended_witness :
    @withRetry Unit (fun _ => .error errNotFound) = (.error errNotFound, 1) :=
  (C6_retry_amended (fun _ => .error errNotFound)).2.1 errNotFound rfl rfl

/-- The stored item of a given id, as read back from the table (the first
matching row; the id column is the primary key, so matches are unique in any
reachable state). -/
def lookupItem (db : DB) (id : String) : Option WorkItem :=
  (db.workitems.find? (fun r => r.item.id == id)).map (fun r => r.item)

/-- Well formedness of the table guaranteed by the SQLite constraints: the id
column is a primary key and rowids are unique. -/
def WfRows (db : DB) : Prop :=
  (db.workitems.map (fun r => r.item.id)).Nodup ∧
  (db.workitems.map (fun r => r.rowid)).Nodup

lemma find?_append_single {α : Type} (p : α → Bool) (l : List α) (x : α) (hx : p x = false) :
    (l ++ [x]).find? p = l.find? p := by
  induction l with
  | nil => simp [List.find?, hx]
  | cons a l ih =>
    cases hp : p a <;> simp [List.find?_cons, hp, ih]

lemma find?_cons_eq {α : Type} (p : α → Bool) (a : α) (l : List α) :
    (a :: l).find? p = if p a = true then some a else l.find? p := by
  cases hp : p a <;> simp [List.find?_cons, hp]

lemma find?_replace_self {l : List Row} {old : Row} {id : String}
    (hnd : (l.map (fun r => r.rowid)).Nodup)
    (hf : l.find? (fun r => r.item.id == id) = some old)
    (newRow : Row) (hid : (newRow.item.id == id) = true) :
    (l.map fun r => if r.rowid == old.rowid then newRow else r).find?
      (fun r => r.item.id == id) = some newRow := by
  induction l with
  | nil => simp at hf
  | cons r0 l ih =>
    rw [List.map_cons, List.nodup_cons] at hnd
    rw [find?_cons_eq] at hf
    rw [List.map_cons, find?_cons_eq]
    by_cases h0 : (r0.item.id == id) = true
    · rw [if_pos h0] at hf
      have h0eq : r0 = old := by simpa using hf
      rw [h0eq, if_pos (show (old.rowid == old.rowid) = true by simp), if_pos hid]
    · rw [if_neg h0] at hf
      have hmem : old ∈ l := List.mem_of_find?_eq_some hf
      have hr0 : (r0.rowid == old.rowid) = false := by
        rw [beq_eq_false_iff_ne]
        intro he
        exact hnd.1 (he ▸ List.mem_map.mpr ⟨old, hmem, rfl⟩)
      rw [hr0]
      simp only [Bool.false_eq_true, if_false]
      rw [if_neg h0]
      exact ih hnd.2 hf

lemma find?_replace_other {l : List Row} {old : Row} {other : String}
    (hnd : (l.map (fun r => r.rowid)).Nodup) (hmem : old ∈ l)
    (newRow : Row) (hne1 : (old.item.id == other) = false)
    (hne2 : (newRow.item.id == other) = false) :
    (l.map fun r => if r.rowid == old.rowid then newRow else r).find?
      (fun r => r.item.id == other) = l.find? (fun r => r.item.id == other) := by
  induction l with
  | nil => rfl
  | cons r0 l ih =>
    rw [List.map_cons, List.nodup_cons] at hnd
    rw [List.map_cons, find?_cons_eq, find?_cons_eq]
    rcases List.mem_cons.mp hmem with h0 | h0
    · rw [← h0, if_pos (show (old.rowid == old.rowid) = true by simp), hne2, hne1]
      simp only [Bool.false_eq_true, if_false]
      have hmap : (l.map fun r => if r.rowid == old.rowid then newRow else r) = l := by
        conv_rhs => rw [← List.map_id l]
        apply List.map_congr_left
        intro r hr
        have hrr : (r.rowid == old.rowid) = false := by
          rw [beq_eq_false_iff_ne]
          intro he
          rw [← h0] at hnd
          exact hnd.1 (he ▸ List.mem_map.mpr ⟨r, hr, rfl⟩)
        simp [hrr]
      rw [hmap]
    · have hr0 : (r0.rowid == old.rowid) = false := by
        rw [beq_eq_false_iff_ne]
        intro he
        exact hnd.1 (he ▸ List.mem_map.mpr ⟨old, h0, rfl⟩)
      rw [hr0]
      simp only [Bool.false_eq_true, if_false]
      by_cases hp : (r0.item.id == other) = true
      · rw [if_pos hp, if_pos hp]
      · rw [if_neg hp, if_neg hp]
        exact ih hnd.2 h0

lemma upsert_workitems_conflict {db : DB} {item : WorkItem} {rOld : Row}
    (hr : db.workitems.find? (fun r => r.item.id == item.id) = some rOld) :
    (upsert item db).workitems = db.workitems.map
      (fun r => if r.rowid == rOld.rowid then { rOld with item := overwriteRow rOld.item item }
        else r) := by
  unfold upsert
  rw [hr]

lemma upsert_workitems_fresh {db : DB} {item : WorkItem}
    (hr : db.workitems.find? (fun r => r.item.id == item.id) = none) :
    (upsert item db).workitems = db.workitems ++ [{ rowid := db.nextRowid, item := item }] := by
  unfold upsert
  rw [hr]

/-- First version of the status preservation scenario item. -/
def itmA : WorkItem :=
  { id := "a-1", source := "github", type := .issue, title := "First title", body := "",
    author := "testuser", timestamp := 0, priority := .normal, url := "",
    metadata := ⟨false, ""⟩, status := .new }

/-- Re ingested version of the same id with a different title and priority. -/
def itmA2 : WorkItem :=
  { id := "a-1", source := "github", type := .issue, title := "Second title", body := "",
    author := "testuser", timestamp := 5, priority := .low, url := "",
    metadata := ⟨false, ""⟩, status := .new }

/-- C3: for an id already present in the store, upsert overwrites title, body,
author, timestamp, priority, url and metadata with the new item values and
leaves the stored status unchanged (id, source and type are likewise not in
the update list of the source); rows of other ids are untouched; and an item
marked done keeps status done after re ingesting the same id with a different
title. -/
theorem C3_upsert_preserves_status :
    (∀ (db : DB) (item old : WorkItem), WfRows db → lookupItem db item.id = some old →
      lookupItem (upsert item db) item.id = some
        { id := old.id, source := old.source, type := old.type, title := item.title,
          body := item.body, author := item.author, timestamp := item.timestamp,
          priority := item.priority, url := item.url, metadata := item.metadata,
          status := old.status }) ∧
    (∀ (db : DB) (item : WorkItem) (other : String), WfRows db → other ≠ item.id →
      lookupItem (upsert item db) other = lookupItem db other) ∧
    (lookupItem (upsert itmA2 (updateStatus "a-1" .done (upsert itmA emptyDB))) "a-1" =
      some
        { id := "a-1", source := "github", type := .issue, title := "Second title",
          body := "", author := "testuser", timestamp := 5, priority := .low, url := "",
          metadata := ⟨false, ""⟩, status := .done }) := by
  refine ⟨?_, ?_, rfl⟩
  · intro db item old hwf hl
    unfold lookupItem at hl
    cases hr : db.workitems.find? (fun r => r.item.id == item.id) with
    | none =>
      rw [hr] at hl
      simp at hl
    | some rOld =>
      rw [hr] at hl
      have hOld : rOld.item = old := by simpa using hl
      have hpid : (rOld.item.id == item.id) = true := by
        have h2 := List.find?_some hr
        simpa using h2
      unfold lookupItem
      rw [upsert_workitems_conflict hr,
        find?_replace_self hwf.2 hr _ (by simpa [overwriteRow] using hpid)]
      rw [← hOld]
      rfl
  · intro db item other hwf hne
    unfold lookupItem
    cases hr : db.workitems.find? (fun r => r.item.id == item.id) with
    | none =>
      rw [upsert_workitems_fresh hr,
        find?_append_single _ _ _ (by simp; exact fun e => hne e.symm)]
    | some rOld =>
      have hpid : (rOld.item.id == item.id) = true := by
        have h2 := List.find?_some hr
        simpa using h2
      have hne1 : (rOld.item.id == other) = false := by
        rw [beq_eq_false_iff_ne]
        rw [beq_iff_eq] at hpid
        rw [hpid]
        exact fun e => hne e.symm
      rw [upsert_workitems_conflict hr,
        find?_replace_other hwf.2 (List.mem_of_find?_eq_some hr) _ hne1
          (by simpa [overwriteRow] using hne1)]

/-- Witness for C3: the overwrite clause applied to a one row store holding
the first version of the item, with both hypotheses discharged concretely. -/
theorem C3_upsert_preserves_status_witness :
    lookupItem (upsert itmA2 (upsert itmA emptyDB)) "a-1" =
      some
        { id := "a-1", source := "github", type := .issue, title := "Second title",
          body := "", author := "testuser", timestamp := 5, priority := .low, url := "",
          metadata := ⟨false, ""⟩, status := .new } :=
  C3_upsert_preserves_status.1 (upsert itmA emptyDB) itmA2 itmA
    (by unfold WfRows; exact ⟨by decide, by decide⟩) (by decide)

instance : IsTotal WorkItem inboxLe := by
  constructor
  intro a b
  unfold inboxLe
  omega

instance : IsTrans WorkItem inboxLe := by
  constructor
  intro a b c hab hbc
  unfold inboxLe at *
  omega

lemma applyAgeEscalation_shape (now : Int) (i : WorkItem) :
    ∃ p, applyAgeEscalation now i = { i with priority := p } := by
  unfold applyAgeEscalation
  by_cases h1 : (decide (now - i.timestamp > 48 * 3600000) && i.priority == Priority.high) = true
  · exact ⟨.urgent, by simp only [h1, if_true]⟩
  · by_cases h2 :
      (decide (now - i.timestamp > 24 * 3600000) && i.priority == Priority.normal) = true
    · exact ⟨.high, by simp only [h1, h2, Bool.false_eq_true, if_false, if_true]⟩
    · refine ⟨i.priority, ?_⟩
      simp only [h1, h2, Bool.false_eq_true, if_false]

lemma getAll_mem_passes {f : WorkItemFilters} {db : DB} {i : WorkItem} (h : i ∈ getAll f db) :
    passesFilters f i = true := by
  unfold getAll at h
  have hm := (List.perm_insertionSort tsDesc _).mem_iff.mp h
  exact (List.mem_filter.mp hm).2

/-- C7: getInbox excludes every item whose stored status is done or dismissed
unless the caller passed an explicit status filter; an explicit status filter
is authoritative and bypasses the default exclusion, the result then being a
permutation of the escalated copies of all stored items passing the filters,
each with that very status; every returned item is the read time age
escalation of a copy of a stored item (the embedding of getInbox is a pure
read, so storage is untouched by construction); and the result is sorted by
the comparator of the source, escalated priority rank ascending and timestamp
descending within equal rank. -/
theorem C7_inbox_view (db : DB) (now : Int) (f : WorkItemFilters) :
    (f.status = none → ∀ x ∈ getInbox now f db,
      x.status ≠ Status.done ∧ x.status ≠ Status.dismissed) ∧
    (∀ s, f.status = some s →
      (getInbox now f db).Perm ((getAll f db).map (applyAgeEscalation now)) ∧
      ∀ x ∈ getInbox now f db, x.status = s) ∧
    List.Sorted inboxLe (getInbox now f db) ∧
    (∀ x ∈ getInbox now f db, ∃ i, i ∈ getAll f db ∧ x = applyAgeEscalation now i) := by
  have hperm : (getInbox now f db).Perm (((getAll f db).filter (fun i =>
      if f.status.isSome then true
      else !(i.status == Status.done) && !(i.status == Status.dismissed))).map
        (applyAgeEscalation now)) := by
    unfold getInbox
    exact List.perm_insertionSort inboxLe _
  refine ⟨?_, ?_, ?_, ?_⟩
  · intro hnone x hx
    obtain ⟨i, hi, hxi⟩ := List.mem_map.mp (hperm.mem_iff.mp hx)
    have hfil := (List.mem_filter.mp hi).2
    rw [hnone] at hfil
    simp only [Option.isSome_none, Bool.false_eq_true, if_false, Bool.and_eq_true,
      Bool.not_eq_true', beq_eq_false_iff_ne] at hfil
    obtain ⟨p, hp⟩ := applyAgeEscalation_shape now i
    rw [← hxi, hp]
    exact hfil
  · intro s hs
    have hfid : ((getAll f db).filter (fun i =>
        if f.status.isSome then true
        else !(i.status == Status.done) && !(i.status == Status.dismissed))) = getAll f db := by
      apply List.filter_eq_self.mpr
      intro a _
      simp [hs]
    refine ⟨hfid ▸ hperm, ?_⟩
    intro x hx
    obtain ⟨i, hi, hxi⟩ := List.mem_map.mp (hperm.mem_iff.mp hx)
    have hpass := getAll_mem_passes (List.mem_filter.mp hi).1
    unfold passesFilters at hpass
    rw [hs] at hpass
    simp only [Bool.and_eq_true, beq_iff_eq] at hpass
    obtain ⟨p, hp⟩ := applyAgeEscalation_shape now i
    rw [← hxi, hp]
    exact hpass.1.2
  · unfold getInbox
    exact List.sorted_insertionSort inboxLe _
  · intro x hx
    obtain ⟨i, hi, hxi⟩ := List.mem_map.mp (hperm.mem_iff.mp hx)
    exact ⟨i, (List.mem_filter.mp hi).1, hxi.symm⟩

/-- The done item of the inbox exclusion scenario. -/
def itmC7done : WorkItem :=
  { id := "gh-done", source := "github", type := .issue, title := "Done item", body := "",
    author := "testuser", timestamp := 0, priority := .normal, url := "",
    metadata := ⟨false, ""⟩, status := .done }

/-- The live item of the inbox exclusion scenario. -/
def itmC7keep : WorkItem :=
  { id := "gh-keep", source := "github", type := .issue, title := "Keep item", body := "",
    author := "testuser", timestamp := 0, priority := .normal, url := "",
    metadata := ⟨false, ""⟩, status := .new }

/-- A two row store for the inbox scenario: one done item, one live item. -/
def dbC7 : DB :=
  { workitems := [⟨0, itmC7done⟩, ⟨1, itmC7keep⟩], fts := [], syncState := [], nextRowid := 2 }

/-- Witness for C7: the default exclusion clause applied to a concrete store
with no status filter, evaluated at the live member of the resulting inbox. -/
theorem C7_inbox_view_witness :
    itmC7keep.status ≠ Status.done ∧ itmC7keep.status ≠ Status.dismissed :=
  (C7_inbox_view dbC7 0 {}).1 rfl itmC7keep (by decide)

lemma find?_append_last {α : Type} (p : α → Bool) (l : List α) (x : α)
    (hl : l.find? p = none) (hx : p x = true) : (l ++ [x]).find? p = some x := by
  induction l with
  | nil => simp [List.find?, hx]
  | cons a l ih =>
    rw [find?_cons_eq] at hl
    by_cases hp : p a = true
    · rw [if_pos hp] at hl
      exact absurd hl (by simp)
    · rw [if_neg hp] at hl
      rw [List.cons_append, find?_cons_eq, if_neg hp]
      exact ih hl

lemma find?_syncRows_replace (l : List SyncStateRow) (n : String) (c : Option String) (now : Int)
    (h : l.any (fun s => s.channelName == n) = true) :
    (l.map fun s =>
        if s.channelName == n then { s with lastSync := now, cursor := c } else s).find?
      (fun s => s.channelName == n) = some ⟨n, now, c⟩ := by
  induction l with
  | nil => simp at h
  | cons s0 l ih =>
    by_cases h0 : (s0.channelName == n) = true
    · have hs0 : s0.channelName = n := beq_iff_eq.mp h0
      rw [List.map_cons, if_pos h0]
      rw [show ({ s0 with lastSync := now, cursor := c } : SyncStateRow) =
        ⟨n, now, c⟩ from by rw [← hs0]]
      rw [find?_cons_eq, if_pos (by simp)]
    · rw [List.any_cons] at h
      simp only [h0, Bool.false_or] at h
      rw [List.map_cons, if_neg h0, find?_cons_eq, if_neg h0]
      exact ih h

lemma find?_syncRows_other (l : List SyncStateRow) {n m : String} (c : Option String) (now : Int)
    (hne : m ≠ n) :
    (l.map fun s =>
        if s.channelName == n then { s with lastSync := now, cursor := c } else s).find?
      (fun s => s.channelName == m) = l.find? (fun s => s.channelName == m) := by
  induction l with
  | nil => rfl
  | cons s0 l ih =>
    rw [List.map_cons]
    by_cases h0 : (s0.channelName == n) = true
    · rw [if_pos h0]
      have hm : (s0.channelName == m) = false := by
        rw [beq_eq_false_iff_ne, beq_iff_eq.mp h0]
        exact fun e => hne e.symm
      rw [find?_cons_eq, find?_cons_eq, if_neg (by simp [hm]), if_neg (by simp [hm])]
      exact ih
    · rw [if_neg h0, find?_cons_eq, find?_cons_eq]
      by_cases hm : (s0.channelName == m) = true
      · rw [if_pos hm, if_pos hm]
      · rw [if_neg hm, if_neg hm]
        exact ih

lemma updateSyncState_get_self (n : String) (c : Option String) (now : Int) (db : DB) :
    getSyncState n (updateSyncState n c now db) = some ⟨n, now, c⟩ := by
  unfold getSyncState updateSyncState
  by_cases h : db.syncState.any (fun s => s.channelName == n) = true
  · rw [if_pos h]
    exact find?_syncRows_replace db.syncState n c now h
  · rw [if_neg h]
    apply find?_append_last
    · rw [List.find?_eq_none]
      intro s hs
      simp only [List.any_eq_true] at h
      push_neg at h
      simpa using h s hs
    · simp

lemma updateSyncState_get_other {m n : String} (c : Option String) (now : Int) (db : DB)
    (hne : m ≠ n) :
    getSyncState m (updateSyncState n c now db) = getSyncState m db := by
  unfold getSyncState updateSyncState
  by_cases h : db.syncState.any (fun s => s.channelName == n) = true
  · rw [if_pos h]
    exact find?_syncRows_other db.syncState c now hne
  · rw [if_neg h]
    apply find?_append_single
    simp only [beq_eq_false_iff_ne]
    exact fun e => hne e.symm

lemma updateSyncState_length_present (n : String) (c : Option String) (now : Int) (db : DB)
    (h : db.syncState.any (fun s => s.channelName == n) = true) :
    (updateSyncState n c now db).syncState.length = db.syncState.length := by
  unfold updateSyncState
  rw [if_pos h]
  exact List.length_map _ _

lemma updateSyncState_names_nodup (n : String) (c : Option String) (now : Int) (db : DB)
    (h : (db.syncState.map (fun s => s.channelName)).Nodup) :
    ((updateSyncState n c now db).syncState.map (fun s => s.channelName)).Nodup := by
  unfold updateSyncState
  by_cases ha : db.syncState.any (fun s => s.channelName == n) = true
  · rw [if_pos ha]
    show (((db.syncState.map fun s =>
      if s.channelName == n then { s with lastSync := now, cursor := c } else s)).map
        (fun s => s.channelName)).Nodup
    have he : ((db.syncState.map fun s =>
        if s.channelName == n then { s with lastSync := now, cursor := c } else s).map
          (fun s => s.channelName)) = db.syncState.map (fun s => s.channelName) := by
      rw [List.map_map]
      apply List.map_congr_left
      intro s _
      show (if s.channelName == n then
        ({ s with lastSync := now, cursor := c } : SyncStateRow) else s).channelName =
          s.channelName
      split <;> rfl
    rw [he]
    exact h
  · rw [if_neg ha]
    show ((db.syncState ++ [(⟨n, now, c⟩ : SyncStateRow)]).map (fun s => s.channelName)).Nodup
    rw [List.map_append]
    refine h.append (List.nodup_singleton _) ?_
    intro a haa hmem
    rw [List.map_singleton, List.mem_singleton] at hmem
    obtain ⟨s, hs, hsn⟩ := List.mem_map.mp haa
    simp only [List.any_eq_true] at ha
    push_neg at ha
    have hc2 : (s.channelName == n) = true := by simp [hsn, hmem]
    exact ha s hs hc2

lemma syncFetchPhase_cons_ok (now : Int) (ch : ChannelRun) (rest : List ChannelRun)
    (db : DB) (per : List (String × SourceStat)) (acc : List WorkItem)
    {items : List WorkItem} (ho : ch.outcome = .ok items) :
    syncFetchPhase now (ch :: rest) db per acc =
      syncFetchPhase now rest (updateSyncState ch.name none now db)
        (jsMapSet (jsMapSet per ch.name ⟨0, 0⟩) ch.name ⟨items.length, 0⟩) (acc ++ items) := by
  simp only [syncFetchPhase]
  rw [ho]

lemma syncFetchPhase_cons_notOk (now : Int) (ch : ChannelRun) (rest : List ChannelRun)
    (db : DB) (per : List (String × SourceStat)) (acc : List WorkItem)
    (ho : ch.outcome.isOk = false) :
    syncFetchPhase now (ch :: rest) db per acc =
      syncFetchPhase now rest db (jsMapSet per ch.name ⟨0, 0⟩) acc := by
  cases h : ch.outcome with
  | ok items => rw [h] at ho; simp [SyncOutcome.isOk] at ho
  | failed msg =>
    simp only [syncFetchPhase]
    rw [h]
  | timedOut =>
    simp only [syncFetchPhase]
    rw [h]

lemma syncFetchPhase_untouched (now : Int) :
    ∀ (chans : List ChannelRun) (db : DB) (per : List (String × SourceStat))
      (acc : List WorkItem) (m : String),
      m ∉ chans.map (fun c => c.name) →
      getSyncState m (syncFetchPhase now chans db per acc).1 = getSyncState m db := by
  intro chans
  induction chans with
  | nil =>
    intro db per acc m _
    rfl
  | cons ch rest ih =>
    intro db per acc m h
    rw [List.map_cons, List.mem_cons] at h
    push_neg at h
    cases ho : ch.outcome with
    | ok items =>
      rw [syncFetchPhase_cons_ok now ch rest db per acc ho, ih _ _ _ _ h.2,
        updateSyncState_get_other none now db h.1]
    | failed msg =>
      rw [syncFetchPhase_cons_notOk now ch rest db per acc (by rw [ho]; rfl), ih _ _ _ _ h.2]
    | timedOut =>
      rw [syncFetchPhase_cons_notOk now ch rest db per acc (by rw [ho]; rfl), ih _ _ _ _ h.2]

lemma syncFetchPhase_state (now : Int) :
    ∀ (chans : List ChannelRun) (db : DB) (per : List (String × SourceStat))
      (acc : List WorkItem),
      (chans.map (fun c => c.name)).Nodup →
      ∀ ch ∈ chans,
        (∀ items, ch.outcome = .ok items →
          getSyncState ch.name (syncFetchPhase now chans db per acc).1 =
            some ⟨ch.name, now, none⟩) ∧
        (ch.outcome.isOk = false →
          getSyncState ch.name (syncFetchPhase now chans db per acc).1 =
            getSyncState ch.name db) := by
  intro chans
  induction chans with
  | nil =>
    intro db per acc _ ch hch
    exact absurd hch (List.not_mem_nil _)
  | cons ch0 rest ih =>
    intro db per acc hnd ch hch
    rw [List.map_cons, List.nodup_cons] at hnd
    rcases List.mem_cons.mp hch with hc | hc
    · subst hc
      constructor
      · intro items ho
        rw [syncFetchPhase_cons_ok now ch rest db per acc ho,
          syncFetchPhase_untouched now rest _ _ _ ch.name hnd.1,
          updateSyncState_get_self]
      · intro ho
        rw [syncFetchPhase_cons_notOk now ch rest db per acc ho,
          syncFetchPhase_untouched now rest _ _ _ ch.name hnd.1]
    · have hne : ch.name ≠ ch0.name := by
        intro he
        exact hnd.1 (he ▸ List.mem_map.mpr ⟨ch, hc, rfl⟩)
      cases ho0 : ch0.outcome with
      | ok items0 =>
        rw [syncFetchPhase_cons_ok now ch0 rest db per acc ho0]
        refine ⟨fun items ho => (ih _ _ _ hnd.2 ch hc).1 items ho, fun ho => ?_⟩
        rw [(ih _ _ _ hnd.2 ch hc).2 ho, updateSyncState_get_other none now db hne]
      | failed msg =>
        rw [syncFetchPhase_cons_notOk now ch0 rest db per acc (by rw [ho0]; rfl)]
        exact ih _ _ _ hnd.2 ch hc
      | timedOut =>
        rw [syncFetchPhase_cons_notOk now ch0 rest db per acc (by rw [ho0]; rfl)]
        exact ih _ _ _ hnd.2 ch hc

lemma syncFetchPhase_names_nodup (now : Int) :
    ∀ (chans : List ChannelRun) (db : DB) (per : List (String × SourceStat))
      (acc : List WorkItem),
      (db.syncState.map (fun s => s.channelName)).Nodup →
      (((syncFetchPhase now chans db per acc).1.syncState.map (fun s => s.channelName)).Nodup) := by
  intro chans
  induction chans with
  | nil =>
    intro db per acc h
    exact h
  | cons ch rest ih =>
    intro db per acc h
    cases ho : ch.outcome with
    | ok items =>
      rw [syncFetchPhase_cons_ok now ch rest db per acc ho]
      exact ih _ _ _ (updateSyncState_names_nodup ch.name none now db h)
    | failed msg =>
      rw [syncFetchPhase_cons_notOk now ch rest db per acc (by rw [ho]; rfl)]
      exact ih _ _ _ h
    | timedOut =>
      rw [syncFetchPhase_cons_notOk now ch rest db per acc (by rw [ho]; rfl)]
      exact ih _ _ _ h

lemma upsert_syncState (item : WorkItem) (db : DB) :
    (upsert item db).syncState = db.syncState := by
  unfold upsert
  cases h : db.workitems.find? (fun r => r.item.id == item.id) <;> rfl

lemma syncPersistPhase_db (now : Int) :
    ∀ (items : List WorkItem) (ids : List String) (db : DB) (n : Nat)
      (per : List (String × SourceStat)),
      (syncPersistPhase now items ids db n per).1 =
        items.foldl (fun d it => upsert (applyPriorityHeuristics now it) d) db := by
  intro items
  induction items with
  | nil =>
    intro ids db n per
    rfl
  | cons item rest ih =>
    intro ids db n per
    simp only [syncPersistPhase, List.foldl_cons]
    split
    · exact ih _ _ _ _
    · exact ih _ _ _ _

lemma foldl_upsert_syncState (now : Int) :
    ∀ (items : List WorkItem) (db : DB),
      (items.foldl (fun d it => upsert (applyPriorityHeuristics now it) d) db).syncState =
        db.syncState := by
  intro items
  induction items with
  | nil =>
    intro db
    rfl
  | cons it rest ih =>
    intro db
    rw [List.foldl_cons, ih, upsert_syncState]

lemma syncAll_syncState (now : Int) (chans : List ChannelRun) (db : DB) :
    (syncAll now chans db).1.syncState = (syncFetchPhase now chans db [] []).1.syncState := by
  show (syncPersistPhase now _ _ (syncFetchPhase now chans db [] []).1 0
    (syncFetchPhase now chans db [] []).2.1).1.syncState = _
  rw [syncPersistPhase_db, foldl_upsert_syncState]

lemma syncAll_getSyncState (now : Int) (chans : List ChannelRun) (db : DB) (m : String) :
    getSyncState m (syncAll now chans db).1 =
      getSyncState m (syncFetchPhase now chans db [] []).1 := by
  unfold getSyncState
  rw [syncAll_syncState]

/-- C8: updateSyncState overwrites the existing record of a channel rather
than appending (the row count is unchanged when the channel is present, and
channel names stay unique across a whole run, so at most one record exists per
channel); a syncAll run sets lastSync to the run time for exactly the channels
whose fetch completed successfully within the timeout, including runs that
produced no items; and the record of every channel that threw or timed out is
left unchanged. -/
theorem C8_sync_state (now : Int) (chans : List ChannelRun) (db : DB) :
    (∀ (n : String) (c : Option String),
      db.syncState.any (fun s => s.channelName == n) = true →
      (updateSyncState n c now db).syncState.length = db.syncState.length) ∧
    ((db.syncState.map (fun s => s.channelName)).Nodup →
      ((syncAll now chans db).1.syncState.map (fun s => s.channelName)).Nodup) ∧
    ((chans.map (fun c => c.name)).Nodup → ∀ ch ∈ chans,
      (∀ items, ch.outcome = .ok items →
        getSyncState ch.name (syncAll now chans db).1 = some ⟨ch.name, now, none⟩) ∧
      (ch.outcome.isOk = false →
        getSyncState ch.name (syncAll now chans db).1 = getSyncState ch.name db)) := by
  refine ⟨fun n c h => updateSyncState_length_present n c now db h, ?_, ?_⟩
  · intro h
    rw [show (syncAll now chans db).1.syncState.map (fun s => s.channelName) =
      ((syncFetchPhase now chans db [] []).1.syncState.map (fun s => s.channelName)) from by
        rw [syncAll_syncState]]
    exact syncFetchPhase_names_nodup now chans db [] [] h
  · intro hnd ch hch
    have hst := syncFetchPhase_state now chans db [] [] hnd ch hch
    exact ⟨fun items ho => by rw [syncAll_getSyncState]; exact hst.1 items ho,
      fun ho => by rw [syncAll_getSyncState]; exact hst.2 ho⟩

/-- A store whose sync state already holds a github record with an old time
and a cursor. -/
def dbC8 : DB :=
  { workitems := [], fts := [], syncState := [⟨"github", 5, some "cur"⟩], nextRowid := 0 }

/-- Witness for C8: a run at time 7 with a successful github fetch returning
no items and a failing jira fetch; the github record is overwritten with the
run time while jira has no record before or after. All hypotheses are
discharged concretely. -/
theorem C8_sync_state_witness :
    getSyncState "github" (syncAll 7 [⟨"github", .ok []⟩, ⟨"jira", .failed "x"⟩] dbC8).1 =
      some ⟨"github", 7, none⟩ ∧
    getSyncState "jira" (syncAll 7 [⟨"github", .ok []⟩, ⟨"jira", .failed "x"⟩] dbC8).1 =
      getSyncState "jira" dbC8 :=
  ⟨((C8_sync_state 7 [⟨"github", .ok []⟩, ⟨"jira", .failed "x"⟩] dbC8).2.2 (by decide)
      ⟨"github", .ok []⟩ (List.mem_cons_self _ _)).1 [] rfl,
    ((C8_sync_state 7 [⟨"github", .ok []⟩, ⟨"jira", .failed "x"⟩] dbC8).2.2 (by decide)
      ⟨"jira", .failed "x"⟩ (by simp)).2 rfl⟩

/-- Lockstep invariant between the workitems table and its text index: ids and
rowids are unique, rowids stay below the allocation counter, and the index
entries are exactly the projections of the table rows as multisets (an update
moves the reinserted entry to the end of the index, so list order may differ). -/
def FtsSync (db : DB) : Prop :=
  WfRows db ∧ (∀ r ∈ db.workitems, r.rowid < db.nextRowid) ∧
    db.fts.Perm (db.workitems.map ftsOf)

lemma map_replace_decomp {l : List Row} {old : Row} (hnd : (l.map (fun r => r.rowid)).Nodup)
    (hmem : old ∈ l) (newRow : Row) :
    ∃ l1 l2, l = l1 ++ old :: l2 ∧
      (l.map fun r => if r.rowid == old.rowid then newRow else r) = l1 ++ newRow :: l2 ∧
      (∀ r ∈ l1, r.rowid ≠ old.rowid) ∧ (∀ r ∈ l2, r.rowid ≠ old.rowid) := by
  obtain ⟨l1, l2, hl⟩ := List.append_of_mem hmem
  subst hl
  rw [List.map_append, List.map_cons] at hnd
  have hmid := List.nodup_middle.mp hnd
  rw [List.nodup_cons] at hmid
  have hnotin := hmid.1
  rw [← List.map_append, List.mem_map] at hnotin
  push_neg at hnotin
  have h1 : ∀ r ∈ l1, r.rowid ≠ old.rowid := by
    intro r hr he
    exact hnotin r (List.mem_append_left _ hr) he
  have h2 : ∀ r ∈ l2, r.rowid ≠ old.rowid := by
    intro r hr he
    exact hnotin r (List.mem_append_right _ hr) he
  refine ⟨l1, l2, rfl, ?_, h1, h2⟩
  rw [List.map_append, List.map_cons, if_pos (show (old.rowid == old.rowid) = true by simp)]
  have e1 : (l1.map fun r => if r.rowid == old.rowid then newRow else r) = l1 := by
    conv_rhs => rw [← List.map_id l1]
    apply List.map_congr_left
    intro r hr
    have hb : (r.rowid == old.rowid) = false := by
      rw [beq_eq_false_iff_ne]
      exact h1 r hr
    simp [hb]
  have e2 : (l2.map fun r => if r.rowid == old.rowid then newRow else r) = l2 := by
    conv_rhs => rw [← List.map_id l2]
    apply List.map_congr_left
    intro r hr
    have hb : (r.rowid == old.rowid) = false := by
      rw [beq_eq_false_iff_ne]
      exact h2 r hr
    simp [hb]
  rw [e1, e2]

lemma ftsSync_replace {db : DB} {old : Row} {id : String} (hs : FtsSync db)
    (hf : db.workitems.find? (fun r => r.item.id == id) = some old)
    (newRow : Row) (hrow : newRow.rowid = old.rowid) (hid : newRow.item.id = old.item.id) :
    FtsSync { db with
      workitems := db.workitems.map (fun r => if r.rowid == old.rowid then newRow else r),
      fts := db.fts.filter (fun e => e.rowid != old.rowid) ++ [ftsOf newRow] } := by
  obtain ⟨⟨hids, hrids⟩, hbound, hperm⟩ := hs
  have hmem := List.mem_of_find?_eq_some hf
  obtain ⟨l1, l2, hdec, hmap, h1, h2⟩ := map_replace_decomp hrids hmem newRow
  refine ⟨⟨?_, ?_⟩, ?_, ?_⟩
  · show ((db.workitems.map fun r => if r.rowid == old.rowid then newRow else r).map
      (fun r => r.item.id)).Nodup
    rw [hmap]
    rw [hdec] at hids
    rw [List.map_append, List.map_cons] at hids ⊢
    rw [hid]
    exact hids
  · show ((db.workitems.map fun r => if r.rowid == old.rowid then newRow else r).map
      (fun r => r.rowid)).Nodup
    rw [hmap]
    rw [hdec] at hrids
    rw [List.map_append, List.map_cons] at hrids ⊢
    rw [hrow]
    exact hrids
  · intro r hr
    have hr2 : r ∈ l1 ++ newRow :: l2 := by
      rw [← hmap]
      exact hr
    show r.rowid < db.nextRowid
    rcases List.mem_append.mp hr2 with h | h
    · exact hbound r (by rw [hdec]; exact List.mem_append_left _ h)
    · rcases List.mem_cons.mp h with h3 | h3
      · rw [h3, hrow]
        exact hbound old hmem
      · exact hbound r (by rw [hdec]; exact List.mem_append_right _ (List.mem_cons_of_mem _ h3))
  · have hfil : (db.fts.filter (fun e => e.rowid != old.rowid)).Perm
        ((l1.map ftsOf) ++ (l2.map ftsOf)) := by
      have hp := hperm.filter (fun e => e.rowid != old.rowid)
      rw [hdec, List.map_append, List.map_cons, List.filter_append, List.filter_cons] at hp
      have e1 : (l1.map ftsOf).filter (fun e => e.rowid != old.rowid) = l1.map ftsOf := by
        rw [List.filter_eq_self]
        intro e he
        obtain ⟨r, hr, hre⟩ := List.mem_map.mp he
        rw [← hre]
        simpa [ftsOf, bne_iff_ne] using h1 r hr
      have e2 : (l2.map ftsOf).filter (fun e => e.rowid != old.rowid) = l2.map ftsOf := by
        rw [List.filter_eq_self]
        intro e he
        obtain ⟨r, hr, hre⟩ := List.mem_map.mp he
        rw [← hre]
        simpa [ftsOf, bne_iff_ne] using h2 r hr
      have ec : ((ftsOf old).rowid != old.rowid) = false := by simp [ftsOf]
      rw [e1, e2, ec] at hp
      simpa using hp
    have s1 : ((db.fts.filter (fun e => e.rowid != old.rowid)) ++ [ftsOf newRow]).Perm
        (((l1.map ftsOf) ++ (l2.map ftsOf)) ++ [ftsOf newRow]) := hfil.append_right _
    have s2 : (((l1.map ftsOf) ++ (l2.map ftsOf)) ++ [ftsOf newRow]).Perm
        ((l1.map ftsOf) ++ (ftsOf newRow :: l2.map ftsOf)) := by
      rw [List.append_assoc]
      exact List.Perm.append_left _ (List.perm_append_singleton _ _)
    have hgoal : ((db.fts.filter (fun e => e.rowid != old.rowid)) ++ [ftsOf newRow]).Perm
        ((l1 ++ newRow :: l2).map ftsOf) := by
      rw [List.map_append, List.map_cons]
      exact s1.trans s2
    rw [← hmap] at hgoal
    exact hgoal

lemma ftsSync_insert {db : DB} {item : WorkItem} (hs : FtsSync db)
    (hf : db.workitems.find? (fun r => r.item.id == item.id) = none) :
    FtsSync { db with
      workitems := db.workitems ++ [{ rowid := db.nextRowid, item := item }],
      fts := db.fts ++ [ftsOf { rowid := db.nextRowid, item := item }],
      nextRowid := db.nextRowid + 1 } := by
  obtain ⟨⟨hids, hrids⟩, hbound, hperm⟩ := hs
  have hnotid : ∀ r ∈ db.workitems, r.item.id ≠ item.id := by
    rw [List.find?_eq_none] at hf
    intro r hr
    simpa using hf r hr
  refine ⟨⟨?_, ?_⟩, ?_, ?_⟩
  · show ((db.workitems ++ [({ rowid := db.nextRowid, item := item } : Row)]).map
      (fun r => r.item.id)).Nodup
    rw [List.map_append]
    refine hids.append (List.nodup_singleton _) ?_
    intro a ha hmem
    rw [List.map_singleton, List.mem_singleton] at hmem
    obtain ⟨r, hr, hra⟩ := List.mem_map.mp ha
    exact hnotid r hr (by rw [hra, hmem])
  · show ((db.workitems ++ [({ rowid := db.nextRowid, item := item } : Row)]).map
      (fun r => r.rowid)).Nodup
    rw [List.map_append]
    refine hrids.append (List.nodup_singleton _) ?_
    intro a ha hmem
    rw [List.map_singleton, List.mem_singleton] at hmem
    obtain ⟨r, hr, hra⟩ := List.mem_map.mp ha
    have hb := hbound r hr
    have hra2 : r.rowid = a := hra
    have hmem2 : a = db.nextRowid := hmem
    omega
  · intro r hr
    show r.rowid < db.nextRowid + 1
    rcases List.mem_append.mp hr with h | h
    · have := hbound r h
      omega
    · rw [List.mem_singleton] at h
      rw [h]
      exact Nat.lt_succ_self _
  · show (db.fts ++ [ftsOf { rowid := db.nextRowid, item := item }]).Perm
      ((db.workitems ++ [({ rowid := db.nextRowid, item := item } : Row)]).map ftsOf)
    rw [List.map_append]
    exact hperm.append (List.Perm.refl _)

lemma ftsSync_upsert (item : WorkItem) (db : DB) (hs : FtsSync db) :
    FtsSync (upsert item db) := by
  unfold upsert
  cases hf : db.workitems.find? (fun r => r.item.id == item.id) with
  | some old => exact ftsSync_replace hs hf _ rfl rfl
  | none => exact ftsSync_insert hs hf

lemma ftsSync_updateStatus (id : String) (st : Status) (db : DB) (hs : FtsSync db) :
    FtsSync (updateStatus id st db) := by
  unfold updateStatus
  cases hf : db.workitems.find? (fun r => r.item.id == id) with
  | some old => exact ftsSync_replace hs hf _ rfl rfl
  | none => exact hs

lemma ftsSync_deleteById (id : String) (db : DB) (hs : FtsSync db) :
    FtsSync (deleteById id db) := by
  unfold deleteById
  cases hf : db.workitems.find? (fun r => r.item.id == id) with
  | some old =>
    obtain ⟨⟨hids, hrids⟩, hbound, hperm⟩ := hs
    refine ⟨⟨?_, ?_⟩, ?_, ?_⟩
    · show ((db.workitems.filter (fun r => r.rowid != old.rowid)).map
        (fun r => r.item.id)).Nodup
      exact hids.sublist ((List.filter_sublist _).map _)
    · show ((db.workitems.filter (fun r => r.rowid != old.rowid)).map
        (fun r => r.rowid)).Nodup
      exact hrids.sublist ((List.filter_sublist _).map _)
    · intro r hr
      have hr2 : r ∈ db.workitems.filter (fun r => r.rowid != old.rowid) := hr
      exact hbound r (List.mem_filter.mp hr2).1
    · have hp := hperm.filter (fun e => e.rowid != old.rowid)
      rw [List.filter_map] at hp
      exact hp
  | none => exact hs

lemma search_eq_of_ftsSync {db : DB} (hs : FtsSync db) (q : String) :
    search q db = (db.workitems.filter (fun r => ftsMatch q (ftsOf r))).map (fun r => r.item) := by
  obtain ⟨⟨hids, hrids⟩, hbound, hperm⟩ := hs
  unfold search
  congr 1
  apply List.filter_congr
  intro r hr
  by_cases hm : ftsMatch q (ftsOf r) = true
  · rw [hm, List.any_eq_true]
    refine ⟨ftsOf r, hperm.mem_iff.mpr (List.mem_map.mpr ⟨r, hr, rfl⟩), ?_⟩
    rw [Bool.and_eq_true]
    exact ⟨by simp [ftsOf], hm⟩
  · have hmf : ftsMatch q (ftsOf r) = false := by simpa using hm
    rw [hmf]
    cases hany : db.fts.any (fun e => e.rowid == r.rowid && ftsMatch q e) with
    | false => rfl
    | true =>
      exfalso
      rw [List.any_eq_true] at hany
      obtain ⟨e, he, hc⟩ := hany
      rw [Bool.and_eq_true] at hc
      obtain ⟨r2, hr2, hre⟩ := List.mem_map.mp (hperm.mem_iff.mp he)
      have hr2r : r2 = r := by
        apply List.inj_on_of_nodup_map hrids hr2 hr
        have hre2 : r2.rowid = e.rowid := by rw [← hre]; rfl
        rw [hre2]
        exact beq_iff_eq.mp hc.1
      rw [← hre, hr2r] at hc
      exact absurd hc.2 (by simpa using hm)

/-- The searched item of the search consistency scenario: its body holds the
word OAuth. -/
def itmS : WorkItem :=
  { id := "gh-s1", source := "github", type := .issue, title := "Authentication refactor",
    body := "Rewrite OAuth flow", author := "testuser", timestamp := 0, priority := .normal,
    url := "", metadata := ⟨false, ""⟩, status := .new }

/-- The re ingested version of the same id whose body no longer holds the word. -/
def itmS2 : WorkItem :=
  { id := "gh-s1", source := "github", type := .issue, title := "Authentication refactor",
    body := "Rewrite token flow", author := "testuser", timestamp := 0, priority := .normal,
    url := "", metadata := ⟨false, ""⟩, status := .new }

/-- C9: the text index stays in lockstep with the workitems table on every
insert, update and delete; upsert (insert or delete then reinsert via the
update trigger), updateStatus and a raw delete each preserve the lockstep
invariant; under the invariant a search returns exactly the rows whose own
current indexed fields match the query, so the index never serves stale rows;
and concretely, after upserting an item whose body contains the text Rewrite
OAuth flow a search for OAuth returns exactly that item, while after
upserting the same id with a body without the word the same search returns
nothing. -/
theorem C9_fts_lockstep :
    (∀ (item : WorkItem) (db : DB), FtsSync db → FtsSync (upsert item db)) ∧
    (∀ (id : String) (st : Status) (db : DB), FtsSync db → FtsSync (updateStatus id st db)) ∧
    (∀ (id : String) (db : DB), FtsSync db → FtsSync (deleteById id db)) ∧
    (∀ (q : String) (db : DB), FtsSync db →
      search q db =
        (db.workitems.filter (fun r => ftsMatch q (ftsOf r))).map (fun r => r.item)) ∧
    (search "OAuth" (upsert itmS emptyDB) = [itmS] ∧
      search "OAuth" (upsert itmS2 (upsert itmS emptyDB)) = []) :=
  ⟨ftsSync_upsert, ftsSync_updateStatus, ftsSync_deleteById,
    fun q _ hs => search_eq_of_ftsSync hs q, rfl, rfl⟩

/-- Witness for C9: the upsert preservation clause applied to the one row
store of the scenario, with the invariant hypothesis discharged concretely. -/
theorem C9_fts_lockstep_witness : FtsSync (upsert itmS2 (upsert itmS emptyDB)) :=
  C9_fts_lockstep.1 itmS2 (upsert itmS emptyDB)
    (by unfold FtsSync WfRows; exact ⟨⟨by decide, by decide⟩, by decide, by decide⟩)

end Soterflow
